import Mathlib

/-!
Verification development for the AnaFlow groundwater-flow solver
(`anaflow/gwsolutions.py`): a shallow embedding of the Laplace-space
radial disk-model solver `lap_transgwflow_cyl`, of the orchestrators
`diskmodel` and `theis`, and of the external pieces they call, together
with theorems checking the specification of the module.

Modelling conventions:

* Radii (entries of `rad` and `rpart`) are modelled by `ERat`, a rational
  number or plus-infinity, mirroring the way the Python code stores
  radii as floats that may be `np.inf`.  NaN radii are outside the model.
* Head values, Laplace variables and aquifer parameters live in a carrier
  type `α` with the arithmetic operations used by the source.  For exact
  reasoning `α = ℚ`; for reasoning about the propagation of IEEE
  non-finite values `α = FVal` (a rational or a non-finite marker, with
  absorbing arithmetic, collapsing `inf`/`nan` into one marker).
* The special functions `i0, i1, k0, k1` (scipy.special), `sqrt`, the
  constant `pi` and the finiteness mask `np.isfinite`-replacement are
  external to the source file and are carried as parameters in `Ops`.
* The sparse linear solve `scipy.sparse.linalg.spsolve` is external; it
  is modelled by an abstract solver parameter, and theorems that need the
  returned vector to solve the system take that as a hypothesis
  (`SolvesSystem`), which is the documented contract of `spsolve`.
* Python `Mb[r, c] = v` writes into the `numpy` band array `Mb` of shape
  `(5, 2*parts)` are modelled by a bounds-checked write `wr` that
  returns `none` on an out-of-range index, mirroring the `IndexError`
  numpy raises there; negative Python indices are written resolved
  (`Mb[-2,-2]` is `Mb[3, 2*parts-2]`).
-/

namespace Anaflow

/-- Radius value: a finite rational or plus-infinity (numpy `inf`). -/
inductive ERat where
  | fin (q : ℚ)
  | inf
deriving DecidableEq

/-- Finite part of a radius; junk value `0` on `inf`.  It is only ever
applied under guards that ensure finiteness, mirroring the fact that the
source only does arithmetic on radii in branches where they are finite. -/
def ERat.toQ : ERat → ℚ
  | .fin q => q
  | .inf => 0

/-- Strict float comparison `a < b` on radii. -/
def ERat.blt : ERat → ERat → Bool
  | .fin a, .fin b => decide (a < b)
  | .fin _, .inf => true
  | .inf, _ => false

/-- Float comparison `a <= b` on radii. -/
def ERat.ble : ERat → ERat → Bool
  | .fin a, .fin b => decide (a ≤ b)
  | .fin _, .inf => true
  | .inf, .fin _ => false
  | .inf, .inf => true

theorem ERat.blt_irrefl (a : ERat) : a.blt a = false := by
  cases a <;> simp [ERat.blt]

theorem ERat.ble_refl (a : ERat) : a.ble a = true := by
  cases a <;> simp [ERat.ble]

theorem ERat.ble_of_blt {a b : ERat} (h : a.blt b = true) : a.ble b = true := by
  cases a <;> cases b <;> simp_all [ERat.blt, ERat.ble]
  try exact le_of_lt h

theorem ERat.blt_of_ble_of_blt {a b c : ERat} (h1 : a.ble b = true) (h2 : b.blt c = true) :
    a.blt c = true := by
  cases a <;> cases b <;> cases c <;> simp_all [ERat.blt, ERat.ble]
  try exact lt_of_le_of_lt h1 h2

theorem ERat.blt_of_blt_of_ble {a b c : ERat} (h1 : a.blt b = true) (h2 : b.ble c = true) :
    a.blt c = true := by
  cases a <;> cases b <;> cases c <;> simp_all [ERat.blt, ERat.ble]
  try exact lt_of_lt_of_le h1 h2

theorem ERat.ble_trans {a b c : ERat} (h1 : a.ble b = true) (h2 : b.ble c = true) :
    a.ble c = true := by
  cases a <;> cases b <;> cases c <;> simp_all [ERat.ble]
  try exact le_trans h1 h2

theorem ERat.blt_trans {a b c : ERat} (h1 : a.blt b = true) (h2 : b.blt c = true) :
    a.blt c = true :=
  ERat.blt_of_ble_of_blt (ERat.ble_of_blt h1) h2

theorem ERat.blt_eq_false_iff_ble {a b : ERat} : a.blt b = false ↔ b.ble a = true := by
  cases a <;> cases b <;> simp [ERat.blt, ERat.ble]
  try exact not_lt

theorem ERat.not_blt_of_ble {a b : ERat} (h : a.ble b = true) : b.blt a = false :=
  ERat.blt_eq_false_iff_ble.mpr h

/-- External numeric environment of `lap_transgwflow_cyl`: the modified
Bessel functions of scipy.special, `np.sqrt`, the constant `np.pi`, the
coercion of (rational-valued) radii into the carrier, and `fin0`, the
masking operation `x if np.isfinite(x) else 0` used on lines 1103/1114 of
the source. -/
structure Ops (α : Type) where
  sqrt : α → α
  i0 : α → α
  i1 : α → α
  k0 : α → α
  k1 : α → α
  pi : α
  ofQ : ℚ → α
  fin0 : α → α

section Generic

variable {α : Type} [Zero α] [One α] [Add α] [Mul α] [Neg α] [Div α] [OfNat α 2]

/-- Coefficient pair `(As, Bs)` of the single-zone (`parts == 1`) branch of
`lap_transgwflow_cyl` as written (source lines 1023-1039), selected by
`rpart[0] == 0.0` and `rpart[-1] == np.inf`.  The branch is dead code at
run time — see `lap_transgwflow_cyl` — but the C5 comparison sets it
against the multi-zone system forced to one zone, the comparison the
spec makes.  Unary minus is placed around
the whole product; the Python `-x*y/z` is `((-x)*y)/z`, which is the same
element in every carrier used here. -/
def singleCoeffs (F : Ops α) (Cs Qs : α) (r0 router : ERat) : α × α :=
  if r0 = ERat.fin 0 then
    if router = ERat.inf then ((0 : α), Qs)
    else ((-(Qs * F.k0 (Cs * F.ofQ router.toQ))) / F.i0 (Cs * F.ofQ router.toQ), Qs)
  else
    if router = ERat.inf then
      ((0 : α), Qs / (Cs * F.ofQ r0.toQ * F.k1 (Cs * F.ofQ r0.toQ)))
    else
      ((-(Qs / (Cs * F.ofQ r0.toQ) * F.k0 (Cs * F.ofQ router.toQ))) /
          (F.i1 (Cs * F.ofQ r0.toQ) * F.k0 (Cs * F.ofQ router.toQ) +
            F.k1 (Cs * F.ofQ r0.toQ) * F.i0 (Cs * F.ofQ router.toQ)),
        Qs / (Cs * F.ofQ r0.toQ) * F.i0 (Cs * F.ofQ router.toQ) /
          (F.i1 (Cs * F.ofQ r0.toQ) * F.k0 (Cs * F.ofQ router.toQ) +
            F.k1 (Cs * F.ofQ r0.toQ) * F.i0 (Cs * F.ofQ router.toQ)))

/-- Single-zone branch of `lap_transgwflow_cyl` for one Laplace value `s`
as written (source lines 1013-1044, unreachable at run time — see
`lap_transgwflow_cyl`): result vector over the requested radii.  Radii
at or beyond `rpart[-1]` keep the zero initialisation of `res`. -/
def lapSingleVec (F : Ops α) (s : α) (rad rpart : List ERat)
    (Spart Tpart : List α) (Qw : α) : List α :=
  let T0 := Tpart.getD 0 0
  let S0 := Spart.getD 0 0
  let Q := Qw / (2 * F.pi * T0)
  let difsr := F.sqrt (S0 / T0)
  let Cs := F.sqrt s * difsr
  let Qs := Q / s
  let r0 := rpart.getD 0 ERat.inf
  let router := rpart.getD (rpart.length - 1) ERat.inf
  let AB := singleCoeffs F Cs Qs r0 router
  rad.map (fun re =>
    if ERat.blt re router then
      AB.1 * F.i0 (Cs * F.ofQ re.toQ) + AB.2 * F.k0 (Cs * F.ofQ re.toQ)
    else 0)

/-- Pointwise update of the band array `Mb`. -/
def fwrite (f : ℕ → ℕ → α) (r c : ℕ) (v : α) : ℕ → ℕ → α :=
  fun i j => if i = r ∧ j = c then v else f i j

/-- Bounds-checked write into the `(5, 2*p)` band array, `none` on an
out-of-range index (numpy `IndexError`). -/
def wr (p r c : ℕ) (v : α) (f : ℕ → ℕ → α) : Option (ℕ → ℕ → α) :=
  if r < 5 ∧ c < 2 * p then some (fwrite f r c v) else none

/-- Option-valued left fold, mirroring a Python `for` loop whose body can
raise. -/
def foldO {σ β : Type} (f : σ → β → Option σ) : σ → List β → Option σ
  | a, [] => some a
  | a, b :: t =>
    match f a b with
    | some a2 => foldO f a2 t
    | none => none

/-- Body of the interface loop `for i in range(parts-1)` assembling the
band array (source lines 1083-1091); the two-element slice assignments are
written as two consecutive writes. -/
def loopBody (F : Ops α) (p : ℕ) (Cs tmp : ℕ → α) (rpart : List ERat)
    (f : ℕ → ℕ → α) (i : ℕ) : Option (ℕ → ℕ → α) :=
  let rb := F.ofQ (rpart.getD (i + 1) ERat.inf).toQ
  wr p 0 (2*i+3) (-(F.k0 (Cs (i+1) * rb))) f >>= fun f1 =>
  wr p 1 (2*i+2) (-(F.i0 (Cs (i+1) * rb))) f1 >>= fun f2 =>
  wr p 1 (2*i+3) (F.k1 (Cs (i+1) * rb)) f2 >>= fun f3 =>
  wr p 2 (2*i+1) (F.k0 (Cs i * rb)) f3 >>= fun f4 =>
  wr p 2 (2*i+2) (-(F.i1 (Cs (i+1) * rb))) f4 >>= fun f5 =>
  wr p 3 (2*i) (F.i0 (Cs i * rb)) f5 >>= fun f6 =>
  wr p 3 (2*i+1) (-(tmp i * F.k1 (Cs i * rb))) f6 >>= fun f7 =>
  wr p 4 (2*i) (tmp i * F.i1 (Cs i * rb)) f7

/-- Assembly of the band array `Mb` for one Laplace value (source lines
1050-1091): the zero initialisation with `Mb[1,1] = Mb[-2,-2] = 1`, the
two conditional boundary-condition blocks, then the interface loop.  The
initialisation is written per Laplace value; in the source it happens once
before the loop over `s`, but every cell the conditionals and the loop
write is rewritten on every iteration, so the per-`s` band array is the
same. -/
def assembleMb (F : Ops α) (p : ℕ) (Cs tmp : ℕ → α) (rpart : List ERat) :
    Option (ℕ → ℕ → α) :=
  let r0 := rpart.getD 0 ERat.inf
  let router := rpart.getD (rpart.length - 1) ERat.inf
  wr p 1 1 1 (fun _ _ => 0) >>= fun f0 =>
  wr p 3 (2*p - 2) 1 f0 >>= fun f1 =>
  (if ERat.blt (ERat.fin 0) r0 then
      wr p 1 1 (Cs 0 * F.ofQ r0.toQ * F.k1 (Cs 0 * F.ofQ r0.toQ)) f1 >>= fun g =>
      wr p 0 2 (-(Cs 0 * F.ofQ r0.toQ * F.i1 (Cs 0 * F.ofQ r0.toQ))) g
    else some f1) >>= fun f2 =>
  (if ERat.blt router ERat.inf then
      wr p 2 (2*p - 1) (F.k0 (Cs (p-1) * F.ofQ router.toQ)) f2 >>= fun g =>
      wr p 3 (2*p - 2) (F.i0 (Cs (p-1) * F.ofQ router.toQ)) g
    else some f2) >>= fun f3 =>
  foldO (loopBody F p Cs tmp rpart) f3 (List.range (p-1))

/-- The sparse matrix built from the band array by
`sps.spdiags(Mb, [2,1,0,-1,-2], 2*parts, 2*parts)`: diagonal `k` takes its
entries from band row `d(k)` at matrix column `j`, so
`M[i,j] = Mb[d(j-i), j]`. -/
def matFromMb (mb : ℕ → ℕ → α) (i j : ℕ) : α :=
  if j = i + 2 then mb 0 j
  else if j = i + 1 then mb 1 j
  else if j = i then mb 2 j
  else if i = j + 1 then mb 3 j
  else if i = j + 2 then mb 4 j
  else 0

/-- Right-hand side `V`: zeros except `V[0] = Q/se` (source line 1072). -/
def Vvec (q0 : α) (j : ℕ) : α :=
  if j = 0 then q0 else 0

/-- Row `i` of `M ⬝ X` over the first `n` columns. -/
def mulVecRow (M : ℕ → ℕ → α) (n : ℕ) (X : ℕ → α) (i : ℕ) : α :=
  ((List.range n).map (fun j => M i j * X j)).sum

/-- Contract of `sps.linalg.spsolve`: the returned vector solves the
assembled `n × n` system. -/
def SolvesSystem (M : ℕ → ℕ → α) (n : ℕ) (X V : ℕ → α) : Prop :=
  ∀ i < n, mulVecRow M n X i = V i

/-- Head evaluation of the multi-zone branch at one radius (source lines
1108-1112): iterate over all zones and overwrite the zero initialisation
whenever `rpart[i] <= re < rpart[i+1]`. -/
def multiHeadEntry (F : Ops α) (p : ℕ) (Cs X : ℕ → α) (rpart : List ERat)
    (re : ERat) : α :=
  (List.range p).foldl (fun acc i =>
    if ERat.ble (rpart.getD i ERat.inf) re && ERat.blt re (rpart.getD (i+1) ERat.inf) then
      X (2*i) * F.i0 (Cs i * F.ofQ re.toQ) + X (2*i+1) * F.k0 (Cs i * F.ofQ re.toQ)
    else acc) 0

/-- Multi-zone result vector for one Laplace value, given the vector `X`
returned by the sparse solve: `X` is masked entrywise by `fin0` (source
line 1103), the heads are evaluated, and the result is masked again
(source line 1114). -/
def lapMultiVec (F : Ops α) (p : ℕ) (Cs X : ℕ → α) (rad rpart : List ERat) : List α :=
  rad.map (fun re => F.fin0 (multiHeadEntry F p Cs (fun j => F.fin0 (X j)) rpart re))

/-- Elementwise `np.sqrt(Spart/Tpart)` scaled by `np.sqrt(se)` (source
lines 1062, 1068). -/
def CsFun (F : Ops α) (s : α) (Spart Tpart : List α) : ℕ → α :=
  fun i => F.sqrt s * F.sqrt (Spart.getD i 0 / Tpart.getD i 0)

/-- The factor `tmp = (Tpart[:-1]/Tpart[1:]) * difsr[:-1]/difsr[1:]`
(source lines 1059-1064). -/
def tmpFun (F : Ops α) (Spart Tpart : List α) : ℕ → α :=
  fun i => Tpart.getD i 0 / Tpart.getD (i+1) 0 *
    F.sqrt (Spart.getD i 0 / Tpart.getD i 0) / F.sqrt (Spart.getD (i+1) 0 / Tpart.getD (i+1) 0)

/-- One Laplace value of `lap_transgwflow_cyl` (source lines 960-1116).
The zone count is `parts = len(np.squeeze(Tpart))` (source lines
1001-1004): `np.squeeze` of a 1-element array is 0-dimensional, and `len`
of a 0-dimensional array raises `TypeError`, so every call with a single
transmissivity entry raises before any branch is taken and the
`parts == 1` closed-form branch (the code embedded as `lapSingleVec`) is
unreachable.  `none` models an uncaught exception propagating out of the
call: this `TypeError`, and the numpy `IndexError` raised when a
band-array write is out of range.  The solver for the banded system is an
abstract parameter (external scipy code). -/
def lap_transgwflow_cyl (F : Ops α)
    (solver : (ℕ → ℕ → α) → (ℕ → α) → ℕ → (ℕ → α)) (s : α)
    (rad rpart : List ERat) (Spart Tpart : List α) (Qw : α) : Option (List α) :=
  let p := Tpart.length
  let Q := Qw / (2 * F.pi * Tpart.getD 0 0)
  if p = 1 then none
  else
    let Cs := CsFun F s Spart Tpart
    let tmp := tmpFun F Spart Tpart
    (assembleMb F p Cs tmp rpart).map (fun mb =>
      lapMultiVec F p Cs (solver (matFromMb mb) (Vvec (Q / s)) (2*p)) rad rpart)

end Generic

/-! Carrier for reasoning about IEEE non-finite propagation: a finite
rational or a non-finite marker (`inf`, `-inf` and `nan` collapsed).
Arithmetic with a non-finite operand stays non-finite, and division by
zero is non-finite; this matches IEEE floats on every operation the
theorems below evaluate (sums/products with a non-finite operand,
division of finite values).  The quotient of a finite value by a
non-finite one, which IEEE may map back to a finite value, is
conservatively non-finite here and is never exercised. -/

/-- Float value: a finite rational (`val = some q`) or non-finite. -/
structure FVal where
  val : Option ℚ
deriving DecidableEq

/-- Finiteness test `np.isfinite`. -/
def FVal.isFin (x : FVal) : Bool := x.val.isSome

instance : Zero FVal := ⟨⟨some 0⟩⟩
instance : One FVal := ⟨⟨some 1⟩⟩
instance : OfNat FVal 2 := ⟨⟨some 2⟩⟩

instance : Add FVal :=
  ⟨fun a b =>
    match a.val, b.val with
    | some x, some y => ⟨some (x + y)⟩
    | _, _ => ⟨none⟩⟩

instance : Mul FVal :=
  ⟨fun a b =>
    match a.val, b.val with
    | some x, some y => ⟨some (x * y)⟩
    | _, _ => ⟨none⟩⟩

instance : Neg FVal :=
  ⟨fun a =>
    match a.val with
    | some x => ⟨some (-x)⟩
    | none => ⟨none⟩⟩

instance : Div FVal :=
  ⟨fun a b =>
    match a.val, b.val with
    | some x, some y => if y = 0 then ⟨none⟩ else ⟨some (x / y)⟩
    | _, _ => ⟨none⟩⟩

/-- The masking operation of source lines 1103 and 1114: a value that is
not finite is replaced with `0`. -/
def maskF (x : FVal) : FVal := if x.isFin then x else 0

/-! Result shapes of the public functions, and the result type of a
Python call: a value or a raised error. -/

/-- Shape-aware numpy result: a 2-d (time × radius) grid or a 1-d
vector. -/
inductive NpResult (β : Type) where
  | grid (g : List (List β))
  | vec (v : List β)
deriving DecidableEq

/-- Outcome of a Python call: a returned value or a raised error. -/
inductive PyResult (β : Type) where
  | ok (v : β)
  | err (msg : String)
deriving DecidableEq

/-- Option-valued list map, mirroring a Python loop whose body can
raise. -/
def listMapO {β γ : Type} (f : β → Option γ) : List β → Option (List γ)
  | [] => some []
  | b :: t =>
    match f b, listMapO f t with
    | some v, some vs => some (v :: vs)
    | _, _ => none

/-- Modelled from the spec: `anaflow.laplace.stehfest`, the numerical
Laplace-inversion routine, is repository code that is not under `src/`.
Per spec sections 4.2 and 6: the value at time `t` is
`(ln2 / t) * Σ_{k=1..order} w[k] * f(k*ln2/t)`, evaluated per spatial
point, and the result is indexed by (time, spatial point).  The weight
table `w` (a pure function of the order, given in the spec only as the
standard alternating-sign combinatorial formula) and the constant `ln2`
are abstract parameters; `m` is the number of spatial points. -/
def stehfest (f : ℚ → Option (List ℚ)) (times : List ℚ) (order : ℕ)
    (w : ℕ → ℚ) (ln2 : ℚ) (m : ℕ) : Option (List (List ℚ)) :=
  listMapO (fun t =>
    (listMapO (fun (k : ℕ) => f (((k : ℚ) + 1) * ln2 / t)) (List.range order)).map (fun fs =>
      (List.range m).map (fun j =>
        ln2 / t *
          ((List.range order).map (fun k => w (k + 1) * ((fs.getD k []).getD j 0))).sum)))
    times

/-- Boolean chain check: `all(l[i] R l[i+1])` for consecutive elements. -/
def chainB {β : Type} (f : β → β → Bool) : List β → Bool
  | [] => true
  | [_] => true
  | a :: b :: t => f a b && chainB f (b :: t)

/-- Integrality test standing in for Python `isinstance(x, int)` on the
value level. -/
def ratIsInt (x : ℚ) : Bool := x.den = 1

/-- Validation chain of `diskmodel` (source lines 892-930), in source
order, returning the message of the first raised `ValueError`. -/
def diskValidate (rad : List ERat) (time : List ℚ) (Tpart Spart Rpart : List ℚ)
    (strucGrid : Bool) (rwell : ℚ) (rinf : ERat) (stehfestn : ℚ) : Option String :=
  if rwell < 0 then some "The wellradius needs to be >= 0"
  else if ERat.ble rinf (ERat.fin rwell) then
    some "The upper boundary needs to be greater than the wellradius"
  else if ¬ (chainB (fun a b => decide (a < b)) Rpart = true) then
    some "The radii of the zones need to be sorted"
  else if Rpart.any (fun r => decide (r ≤ rwell)) then
    some "The radii of the zones need to be greater than the wellradius"
  else if Rpart.any (fun r => ERat.ble rinf (ERat.fin r)) then
    some "The radii of the zones need to be less than the outer radius"
  else if rad.any (fun re => ERat.blt re (ERat.fin rwell)) ||
      rad.any (fun re => ERat.ble re (ERat.fin 0)) then
    some "The given radii need to be greater than the wellradius"
  else if time.any (fun t => decide (t ≤ 0)) then
    some "The given times need to be >= 0"
  else if strucGrid = false ∧ ¬ (rad.length = time.length) then
    some "For unstructured grid the number of time- & radii-pts must equal"
  else if Tpart.any (fun x => decide (x ≤ 0)) then
    some "The Transmissivities need to be positiv"
  else if Spart.any (fun x => decide (x ≤ 0)) then
    some "The Storages need to be positiv"
  else if ¬ (ratIsInt stehfestn = true) then
    some "The boundary for the Stehfest-algorithm needs to be an integer"
  else if stehfestn ≤ 1 then
    some "The boundary for the Stehfest-algorithm needs to be > 1"
  else if ¬ (stehfestn.num % 2 = 0) then
    some "The boundary for the Stehfest-algorithm needs to be even"
  else none

/-- Diagonal of a (time × radius) grid, `np.diag`. -/
def diagOf (g : List (List ℚ)) : List ℚ :=
  g.mapIdx (fun i row => row.getD i 0)

/-- The `diskmodel` orchestrator (source lines 820-952): validation,
zone partition `rpart = [rwell] + Rpart + [rinf]`, Stehfest inversion of
the zoned Laplace solver, diagonal extraction in unstructured mode, and
the far-field offset `hinf`.  The guard `len(grid_shape) > 0` on the
diagonal extraction is `rad.length ≠ 1`: `np.squeeze` of a length-one
radius array is 0-dimensional, with empty shape.  The abstract `solver`
and the spec-modelled Stehfest parameters `w`, `ln2` are passed
through.  An exception raised inside the inversion — the `TypeError` of
a single-zone call (`Rpart = []`), or a band-write `IndexError` —
propagates uncaught; the model reports it as the error result labelled
"uncaught exception". -/
def diskmodel (F : Ops ℚ) (solver : (ℕ → ℕ → ℚ) → (ℕ → ℚ) → ℕ → (ℕ → ℚ))
    (w : ℕ → ℚ) (ln2 : ℚ) (rad : List ERat) (time : List ℚ)
    (Tpart Spart Rpart : List ℚ) (Qw : ℚ) (strucGrid : Bool)
    (rwell : ℚ) (rinf : ERat) (hinf : ℚ) (stehfestn : ℚ) :
    PyResult (NpResult ℚ) :=
  match diskValidate rad time Tpart Spart Rpart strucGrid rwell rinf stehfestn with
  | some msg => .err msg
  | none =>
    let rpart := ERat.fin rwell :: (Rpart.map ERat.fin ++ [rinf])
    let order := stehfestn.num.toNat
    match stehfest (fun s => lap_transgwflow_cyl F solver s rad rpart Spart Tpart Qw)
        time order w ln2 rad.length with
    | none => .err "uncaught exception"
    | some g =>
      if strucGrid = false ∧ rad.length ≠ 1 then
        .ok (.vec ((diagOf g).map (fun x => x + hinf)))
      else
        .ok (.grid (g.map (fun row => row.map (fun x => x + hinf))))

/-- Validation chain of `theis` (source lines 399-428), in source
order. -/
def theisValidate (rad : List ERat) (time : List ℚ) (T S : ℚ)
    (strucGrid : Bool) (rwell : ℚ) (rinf : ERat) (stehfestn : ℚ) : Option String :=
  if rwell < 0 then some "The wellradius needs to be >= 0"
  else if ERat.ble rinf (ERat.fin rwell) then
    some "The upper boundary needs to be greater than the wellradius"
  else if rad.any (fun re => ERat.blt re (ERat.fin rwell)) ||
      rad.any (fun re => ERat.ble re (ERat.fin 0)) then
    some "The given radii need to be greater than the wellradius"
  else if time.any (fun t => decide (t ≤ 0)) then
    some "The given times need to be > 0"
  else if strucGrid = false ∧ ¬ (rad.length = time.length) then
    some "For unstructured grid the number of time- & radii-pts must equal"
  else if T ≤ 0 then
    some "The Transmissivity needs to be positiv"
  else if S ≤ 0 then
    some "The Storage needs to be positiv"
  else if ¬ (ratIsInt stehfestn = true) then
    some "The boundary for the Stehfest-algorithm needs to be an integer"
  else if stehfestn ≤ 1 then
    some "The boundary for the Stehfest-algorithm needs to be > 1"
  else if ¬ (stehfestn.num % 2 = 0) then
    some "The boundary for the Stehfest-algorithm needs to be even"
  else none

/-- The `theis` orchestrator (source lines 335-455).  When
`rwell == 0 and rinf == inf` it returns the closed-form
`well_solution(rad, time, T, S, Qw)` from `anaflow.helper`, which is not
under `src/`; that external value is the abstract parameter `wsGrid`,
known only to be indexed by (time, radius) as the source and its
docstring show.  Otherwise it runs the Stehfest inversion of the
single-zone Laplace solver with `rpart = [rwell, rinf]`. -/
def theis (F : Ops ℚ) (solver : (ℕ → ℕ → ℚ) → (ℕ → ℚ) → ℕ → (ℕ → ℚ))
    (w : ℕ → ℚ) (ln2 : ℚ) (wsGrid : List (List ℚ)) (rad : List ERat)
    (time : List ℚ) (T S Qw : ℚ) (strucGrid : Bool)
    (rwell : ℚ) (rinf : ERat) (hinf : ℚ) (stehfestn : ℚ) :
    PyResult (NpResult ℚ) :=
  match theisValidate rad time T S strucGrid rwell rinf stehfestn with
  | some msg => .err msg
  | none =>
    let resO : Option (List (List ℚ)) :=
      if rwell = 0 ∧ rinf = ERat.inf then some wsGrid
      else
        stehfest
          (fun s => lap_transgwflow_cyl F solver s rad [ERat.fin rwell, rinf] [S] [T] Qw)
          time stehfestn.num.toNat w ln2 rad.length
    match resO with
    | none => .err "uncaught exception"
    | some g =>
      if strucGrid = false ∧ rad.length ≠ 1 then
        .ok (.vec ((diagOf g).map (fun x => x + hinf)))
      else
        .ok (.grid (g.map (fun row => row.map (fun x => x + hinf))))

/-! Concrete instantiations used to exhibit concrete runs. -/

/-- Concrete stand-in environment on `ℚ`: identity special functions and
a rational stand-in for `pi`.  Used to exhibit concrete runs of the
embedded code; no theorem relies on these being the true Bessel
functions. -/
def idOps : Ops ℚ :=
  { sqrt := id, i0 := id, i1 := id, k0 := id, k1 := id,
    pi := 3, ofQ := id, fin0 := id }

theorem idOps_sqrt (x : ℚ) : idOps.sqrt x = x := rfl

theorem idOps_i0 (x : ℚ) : idOps.i0 x = x := rfl

theorem idOps_i1 (x : ℚ) : idOps.i1 x = x := rfl

theorem idOps_k0 (x : ℚ) : idOps.k0 x = x := rfl

theorem idOps_k1 (x : ℚ) : idOps.k1 x = x := rfl

theorem idOps_pi : idOps.pi = 3 := rfl

theorem idOps_ofQ (x : ℚ) : idOps.ofQ x = x := rfl

/-- Trivial stand-in sparse solver. -/
def zsolver : (ℕ → ℕ → ℚ) → (ℕ → ℚ) → ℕ → (ℕ → ℚ) :=
  fun _ _ _ => fun _ => 0

/-- Environment on the float carrier used to exhibit non-finite
propagation.  It agrees with the scipy functions at every point the
concrete run below evaluates: `i0(0) = 1` and `k0(0) = +inf` (non-finite),
`sqrt(1) = 1`; `pi` is a finite stand-in. -/
def nanOps : Ops FVal :=
  { sqrt := fun x => x,
    i0 := fun x => if x = 0 then 1 else x,
    i1 := fun x => x,
    k0 := fun x => if x = 0 then ⟨none⟩ else x,
    k1 := fun x => x,
    pi := ⟨some 3⟩,
    ofQ := fun q => ⟨some q⟩,
    fin0 := maskF }

/-- Trivial stand-in sparse solver on the float carrier. -/
def zsolverF : (ℕ → ℕ → FVal) → (ℕ → FVal) → ℕ → (ℕ → FVal) :=
  fun _ _ _ => fun _ => 0

/-- Diagonal extraction on a result shape. -/
def toDiagRes : NpResult ℚ → NpResult ℚ
  | .grid g => .vec (diagOf g)
  | .vec v => .vec v

/-- Map over a non-raising result. -/
def pyMap {β : Type} (f : β → β) : PyResult β → PyResult β
  | .ok v => .ok (f v)
  | .err m => .err m

/-! Band-array write lemmas and the loop-invariant machinery for the
multi-zone assembly. -/

section GenericLemmas

variable {α : Type} [Zero α] [One α] [Add α] [Mul α] [Neg α] [Div α] [OfNat α 2]

theorem fwrite_same (f : ℕ → ℕ → α) (r c : ℕ) (v : α) : fwrite f r c v r c = v := by
  simp [fwrite]

theorem fwrite_other (f : ℕ → ℕ → α) (r c : ℕ) (v : α) {i j : ℕ}
    (h : ¬(i = r ∧ j = c)) : fwrite f r c v i j = f i j := by
  simp [fwrite, h]

theorem wr_eq_some {p r c : ℕ} (v : α) (f : ℕ → ℕ → α) (h : r < 5 ∧ c < 2 * p) :
    wr p r c v f = some (fwrite f r c v) := by
  simp [wr, h]

/-- Cells written by iteration `i` of the interface loop. -/
def loopCells (i : ℕ) : List (ℕ × ℕ) :=
  [(0, 2*i+3), (1, 2*i+2), (1, 2*i+3), (2, 2*i+1), (2, 2*i+2), (3, 2*i), (3, 2*i+1), (4, 2*i)]

theorem loopBody_some (F : Ops α) (p : ℕ) (Cs tmp : ℕ → α) (rpart : List ERat)
    (i : ℕ) (hi : 2*i+3 < 2*p) (f : ℕ → ℕ → α) :
    ∃ g, loopBody F p Cs tmp rpart f i = some g ∧
      ∀ r c, (r, c) ∉ loopCells i → g r c = f r c := by
  refine ⟨fwrite (fwrite (fwrite (fwrite (fwrite (fwrite (fwrite (fwrite f
      0 (2*i+3) (-(F.k0 (Cs (i+1) * F.ofQ ((rpart.getD (i + 1) ERat.inf).toQ)))))
      1 (2*i+2) (-(F.i0 (Cs (i+1) * F.ofQ ((rpart.getD (i + 1) ERat.inf).toQ)))))
      1 (2*i+3) (F.k1 (Cs (i+1) * F.ofQ ((rpart.getD (i + 1) ERat.inf).toQ))))
      2 (2*i+1) (F.k0 (Cs i * F.ofQ ((rpart.getD (i + 1) ERat.inf).toQ))))
      2 (2*i+2) (-(F.i1 (Cs (i+1) * F.ofQ ((rpart.getD (i + 1) ERat.inf).toQ)))))
      3 (2*i) (F.i0 (Cs i * F.ofQ ((rpart.getD (i + 1) ERat.inf).toQ))))
      3 (2*i+1) (-(tmp i * F.k1 (Cs i * F.ofQ ((rpart.getD (i + 1) ERat.inf).toQ)))))
      4 (2*i) (tmp i * F.i1 (Cs i * F.ofQ ((rpart.getD (i + 1) ERat.inf).toQ))), ?_, ?_⟩
  · simp only [loopBody]
    rw [wr_eq_some _ _ ⟨by omega, by omega⟩]
    simp only [Option.bind_eq_bind, Option.some_bind]
    rw [wr_eq_some _ _ ⟨by omega, by omega⟩]
    simp only [Option.some_bind]
    rw [wr_eq_some _ _ ⟨by omega, by omega⟩]
    simp only [Option.some_bind]
    rw [wr_eq_some _ _ ⟨by omega, by omega⟩]
    simp only [Option.some_bind]
    rw [wr_eq_some _ _ ⟨by omega, by omega⟩]
    simp only [Option.some_bind]
    rw [wr_eq_some _ _ ⟨by omega, by omega⟩]
    simp only [Option.some_bind]
    rw [wr_eq_some _ _ ⟨by omega, by omega⟩]
    simp only [Option.some_bind]
    rw [wr_eq_some _ _ ⟨by omega, by omega⟩]
  · intro r c hrc
    simp only [loopCells, List.mem_cons, List.not_mem_nil, or_false, Prod.mk.injEq,
      not_or] at hrc
    obtain ⟨h1, h2, h3, h4, h5, h6, h7, h8⟩ := hrc
    rw [fwrite_other _ _ _ _ (by tauto), fwrite_other _ _ _ _ (by tauto),
      fwrite_other _ _ _ _ (by tauto), fwrite_other _ _ _ _ (by tauto),
      fwrite_other _ _ _ _ (by tauto), fwrite_other _ _ _ _ (by tauto),
      fwrite_other _ _ _ _ (by tauto), fwrite_other _ _ _ _ (by tauto)]

theorem foldO_loop (F : Ops α) (p : ℕ) (Cs tmp : ℕ → α) (rpart : List ERat)
    (l : List ℕ) (hb : ∀ i ∈ l, 2*i+3 < 2*p) (f : ℕ → ℕ → α) :
    ∃ g, foldO (loopBody F p Cs tmp rpart) f l = some g ∧
      ∀ r c, (∀ i ∈ l, (r, c) ∉ loopCells i) → g r c = f r c := by
  induction l generalizing f with
  | nil => exact ⟨f, rfl, fun r c _ => rfl⟩
  | cons a t ih =>
    obtain ⟨g1, hg1, hu1⟩ :=
      loopBody_some F p Cs tmp rpart a (hb a (List.mem_cons_self a t)) f
    obtain ⟨g2, hg2, hu2⟩ := ih (fun i hi => hb i (List.mem_cons_of_mem a hi)) g1
    refine ⟨g2, ?_, ?_⟩
    · simp only [foldO, hg1, hg2]
    · intro r c hrc
      rw [hu2 r c (fun i hi => hrc i (List.mem_cons_of_mem a hi)),
        hu1 r c (hrc a (List.mem_cons_self a t))]

/-- Assembly succeeds for at least two zones, and the values at the cells
the boundary-condition theorems read are as written (the interface loop
never touches them). -/
theorem assembleMb_cells (F : Ops α) (p : ℕ) (hp : 2 ≤ p) (Cs tmp : ℕ → α)
    (rpart : List ERat) :
    ∃ mb, assembleMb F p Cs tmp rpart = some mb ∧
      mb 1 1 = (if ERat.blt (ERat.fin 0) (rpart.getD 0 ERat.inf) then
          Cs 0 * F.ofQ (rpart.getD 0 ERat.inf).toQ *
            F.k1 (Cs 0 * F.ofQ (rpart.getD 0 ERat.inf).toQ)
        else 1) ∧
      mb 0 2 = (if ERat.blt (ERat.fin 0) (rpart.getD 0 ERat.inf) then
          -(Cs 0 * F.ofQ (rpart.getD 0 ERat.inf).toQ *
            F.i1 (Cs 0 * F.ofQ (rpart.getD 0 ERat.inf).toQ))
        else 0) ∧
      mb 2 (2*p-1) = (if ERat.blt (rpart.getD (rpart.length - 1) ERat.inf) ERat.inf then
          F.k0 (Cs (p-1) * F.ofQ (rpart.getD (rpart.length - 1) ERat.inf).toQ)
        else 0) ∧
      mb 3 (2*p-2) = (if ERat.blt (rpart.getD (rpart.length - 1) ERat.inf) ERat.inf then
          F.i0 (Cs (p-1) * F.ofQ (rpart.getD (rpart.length - 1) ERat.inf).toQ)
        else 1) ∧
      mb 2 0 = 0 ∧
      mb 4 (2*p-3) = 0 ∧
      (∀ r c, 2*p ≤ c → mb r c = 0) := by
  unfold assembleMb
  rw [wr_eq_some _ _ ⟨by omega, by omega⟩]
  simp only [Option.bind_eq_bind, Option.some_bind]
  rw [wr_eq_some _ _ ⟨by omega, by omega⟩]
  simp only [Option.some_bind]
  set r0 := rpart.getD 0 ERat.inf with hr0
  set router := rpart.getD (rpart.length - 1) ERat.inf with hrouter
  set f1 : ℕ → ℕ → α := fwrite (fwrite (fun _ _ => 0) 1 1 1) 3 (2*p-2) 1 with hf1
  have hstep2 : ∃ f2, ((if ERat.blt (ERat.fin 0) r0 then
        (wr p 1 1 (Cs 0 * F.ofQ r0.toQ * F.k1 (Cs 0 * F.ofQ r0.toQ)) f1).bind fun g =>
          wr p 0 2 (-(Cs 0 * F.ofQ r0.toQ * F.i1 (Cs 0 * F.ofQ r0.toQ))) g
      else some f1) = some f2) ∧
      f2 1 1 = (if ERat.blt (ERat.fin 0) r0 then
          Cs 0 * F.ofQ r0.toQ * F.k1 (Cs 0 * F.ofQ r0.toQ) else 1) ∧
      f2 0 2 = (if ERat.blt (ERat.fin 0) r0 then
          -(Cs 0 * F.ofQ r0.toQ * F.i1 (Cs 0 * F.ofQ r0.toQ)) else 0) ∧
      f2 3 (2*p-2) = 1 ∧ f2 2 (2*p-1) = 0 ∧ f2 2 0 = 0 ∧ f2 4 (2*p-3) = 0 ∧
      (∀ r c, 2*p ≤ c → f2 r c = 0) := by
    by_cases hb : ERat.blt (ERat.fin 0) r0
    · refine ⟨fwrite (fwrite f1 1 1 (Cs 0 * F.ofQ r0.toQ * F.k1 (Cs 0 * F.ofQ r0.toQ)))
        0 2 (-(Cs 0 * F.ofQ r0.toQ * F.i1 (Cs 0 * F.ofQ r0.toQ))), ?_, ?_, ?_, ?_, ?_, ?_, ?_, ?_⟩
      · rw [if_pos hb, wr_eq_some _ _ ⟨by omega, by omega⟩, Option.some_bind,
          wr_eq_some _ _ ⟨by omega, by omega⟩]
      · rw [if_pos hb, fwrite_other _ _ _ _ (by omega), fwrite_same]
      · rw [if_pos hb, fwrite_same]
      · rw [fwrite_other _ _ _ _ (by omega), fwrite_other _ _ _ _ (by omega), hf1,
          fwrite_same]
      · rw [fwrite_other _ _ _ _ (by omega), fwrite_other _ _ _ _ (by omega), hf1,
          fwrite_other _ _ _ _ (by omega), fwrite_other _ _ _ _ (by omega)]
      · rw [fwrite_other _ _ _ _ (by omega), fwrite_other _ _ _ _ (by omega), hf1,
          fwrite_other _ _ _ _ (by omega), fwrite_other _ _ _ _ (by omega)]
      · rw [fwrite_other _ _ _ _ (by omega), fwrite_other _ _ _ _ (by omega), hf1,
          fwrite_other _ _ _ _ (by omega), fwrite_other _ _ _ _ (by omega)]
      · intro r c hc
        rw [fwrite_other _ _ _ _ (by omega), fwrite_other _ _ _ _ (by omega), hf1,
          fwrite_other _ _ _ _ (by omega), fwrite_other _ _ _ _ (by omega)]
    · refine ⟨f1, by rw [if_neg hb], ?_, ?_, ?_, ?_, ?_, ?_, ?_⟩
      · rw [if_neg hb, hf1, fwrite_other _ _ _ _ (by omega), fwrite_same]
      · rw [if_neg hb, hf1, fwrite_other _ _ _ _ (by omega),
          fwrite_other _ _ _ _ (by omega)]
      · rw [hf1, fwrite_same]
      · rw [hf1, fwrite_other _ _ _ _ (by omega), fwrite_other _ _ _ _ (by omega)]
      · rw [hf1, fwrite_other _ _ _ _ (by omega), fwrite_other _ _ _ _ (by omega)]
      · rw [hf1, fwrite_other _ _ _ _ (by omega), fwrite_other _ _ _ _ (by omega)]
      · intro r c hc
        rw [hf1, fwrite_other _ _ _ _ (by omega), fwrite_other _ _ _ _ (by omega)]
  obtain ⟨f2, hf2eq, hf2a, hf2b, hf2c, hf2d, hf2e, hf2f, hf2z⟩ := hstep2
  rw [hf2eq]
  simp only [Option.some_bind]
  have hstep3 : ∃ f3, ((if ERat.blt router ERat.inf then
        (wr p 2 (2*p - 1) (F.k0 (Cs (p-1) * F.ofQ router.toQ)) f2).bind fun g =>
          wr p 3 (2*p - 2) (F.i0 (Cs (p-1) * F.ofQ router.toQ)) g
      else some f2) = some f3) ∧
      f3 1 1 = f2 1 1 ∧ f3 0 2 = f2 0 2 ∧
      f3 2 (2*p-1) = (if ERat.blt router ERat.inf then
          F.k0 (Cs (p-1) * F.ofQ router.toQ) else 0) ∧
      f3 3 (2*p-2) = (if ERat.blt router ERat.inf then
          F.i0 (Cs (p-1) * F.ofQ router.toQ) else 1) ∧
      f3 2 0 = 0 ∧ f3 4 (2*p-3) = 0 ∧
      (∀ r c, 2*p ≤ c → f3 r c = 0) := by
    by_cases hb : ERat.blt router ERat.inf
    · refine ⟨fwrite (fwrite f2 2 (2*p-1) (F.k0 (Cs (p-1) * F.ofQ router.toQ)))
        3 (2*p-2) (F.i0 (Cs (p-1) * F.ofQ router.toQ)), ?_, ?_, ?_, ?_, ?_, ?_, ?_, ?_⟩
      · rw [if_pos hb, wr_eq_some _ _ ⟨by omega, by omega⟩, Option.some_bind,
          wr_eq_some _ _ ⟨by omega, by omega⟩]
      · rw [fwrite_other _ _ _ _ (by omega), fwrite_other _ _ _ _ (by omega)]
      · rw [fwrite_other _ _ _ _ (by omega), fwrite_other _ _ _ _ (by omega)]
      · rw [if_pos hb, fwrite_other _ _ _ _ (by omega), fwrite_same]
      · rw [if_pos hb, fwrite_same]
      · rw [fwrite_other _ _ _ _ (by omega), fwrite_other _ _ _ _ (by omega)]
        exact hf2e
      · rw [fwrite_other _ _ _ _ (by omega), fwrite_other _ _ _ _ (by omega)]
        exact hf2f
      · intro r c hc
        rw [fwrite_other _ _ _ _ (by omega), fwrite_other _ _ _ _ (by omega)]
        exact hf2z r c hc
    · exact ⟨f2, by rw [if_neg hb], rfl, rfl, by rw [if_neg hb]; exact hf2d,
        by rw [if_neg hb]; exact hf2c, hf2e, hf2f, hf2z⟩
  obtain ⟨f3, hf3eq, hf3a, hf3b, hf3c, hf3d, hf3e, hf3f, hf3z⟩ := hstep3
  rw [hf3eq]
  simp only [Option.some_bind]
  obtain ⟨mb, hmb, hu⟩ := foldO_loop F p Cs tmp rpart (List.range (p-1))
    (by intro i hi; rw [List.mem_range] at hi; omega) f3
  have hub : ∀ r c, (∀ i, i < p - 1 → (r, c) ∉ loopCells i) → mb r c = f3 r c := by
    intro r c h
    exact hu r c (fun i hi => h i (List.mem_range.mp hi))
  refine ⟨mb, hmb, ?_, ?_, ?_, ?_, ?_, ?_, ?_⟩
  · rw [hub 1 1 ?_, hf3a, hf2a]
    intro i hi
    simp only [loopCells, List.mem_cons, List.not_mem_nil, or_false, Prod.mk.injEq]
    omega
  · rw [hub 0 2 ?_, hf3b, hf2b]
    intro i hi
    simp only [loopCells, List.mem_cons, List.not_mem_nil, or_false, Prod.mk.injEq]
    omega
  · rw [hub 2 (2*p-1) ?_, hf3c]
    intro i hi
    simp only [loopCells, List.mem_cons, List.not_mem_nil, or_false, Prod.mk.injEq]
    omega
  · rw [hub 3 (2*p-2) ?_, hf3d]
    intro i hi
    simp only [loopCells, List.mem_cons, List.not_mem_nil, or_false, Prod.mk.injEq]
    omega
  · rw [hub 2 0 ?_, hf3e]
    intro i hi
    simp only [loopCells, List.mem_cons, List.not_mem_nil, or_false, Prod.mk.injEq]
    omega
  · rw [hub 4 (2*p-3) ?_, hf3f]
    intro i hi
    simp only [loopCells, List.mem_cons, List.not_mem_nil, or_false, Prod.mk.injEq]
    omega
  · intro r c hc
    rw [hub r c ?_]
    · exact hf3z r c hc
    · intro i hi
      simp only [loopCells, List.mem_cons, List.not_mem_nil, or_false, Prod.mk.injEq]
      omega

/-- A fold that overwrites the accumulator exactly on indices where the
condition holds keeps the accumulator when the condition never holds. -/
theorem foldl_keep (cond : ℕ → Bool) (f : ℕ → α) (l : List ℕ) (acc : α)
    (h : ∀ j ∈ l, cond j = false) :
    l.foldl (fun a j => if cond j then f j else a) acc = acc := by
  induction l generalizing acc with
  | nil => rfl
  | cons a t ih =>
    simp only [List.foldl_cons, h a (List.mem_cons_self a t), Bool.false_eq_true,
      if_false]
    exact ih acc (fun j hj => h j (List.mem_cons_of_mem a hj))

/-- A fold that overwrites the accumulator exactly on one index yields
that value. -/
theorem foldl_pick (cond : ℕ → Bool) (f : ℕ → α) (i : ℕ) (l : List ℕ) (acc : α)
    (h : ∀ j ∈ l, cond j = true ↔ j = i) (hi : i ∈ l) :
    l.foldl (fun a j => if cond j then f j else a) acc = f i := by
  induction l generalizing acc with
  | nil => cases hi
  | cons a t ih =>
    by_cases ha : a = i
    · subst ha
      simp only [List.foldl_cons, (h a (List.mem_cons_self a t)).mpr rfl, if_true]
      by_cases hit : a ∈ t
      · exact ih (f a) (fun j hj => h j (List.mem_cons_of_mem a hj)) hit
      · refine foldl_keep cond f t (f a) (fun j hj => ?_)
        have hhj := h j (List.mem_cons_of_mem a hj)
        rcases Bool.eq_false_or_eq_true (cond j) with hc | hc
        · exact absurd (hhj.mp hc ▸ hj) hit
        · exact hc
    · have hit : i ∈ t := by
        rcases List.mem_cons.mp hi with h1 | h1
        · exact absurd h1.symm ha
        · exact h1
      simp only [List.foldl_cons]
      have hca : cond a = false := by
        rcases Bool.eq_false_or_eq_true (cond a) with hc | hc
        · exact absurd ((h a (List.mem_cons_self a t)).mp hc) ha
        · exact hc
      rw [hca]
      simp only [Bool.false_eq_true, if_false]
      exact ih acc (fun j hj => h j (List.mem_cons_of_mem a hj)) hit

end GenericLemmas

/-! Rational-carrier lemmas: sums, the chain order on the zone partition,
shapes of the Stehfest output, and totality of the solver. -/

theorem range_map_sum (f : ℕ → ℚ) (n : ℕ) :
    ((List.range n).map f).sum = ∑ j ∈ Finset.range n, f j := by
  induction n with
  | zero => simp
  | succ m ih =>
    rw [List.range_succ, Finset.sum_range_succ, List.map_append, List.sum_append, ih]
    simp

theorem mulVecRow_single (M : ℕ → ℕ → ℚ) (n : ℕ) (X : ℕ → ℚ) (i c : ℕ) (hc : c < n)
    (h0 : ∀ j, j < n → j ≠ c → M i j = 0) : mulVecRow M n X i = M i c * X c := by
  unfold mulVecRow
  rw [range_map_sum]
  apply Finset.sum_eq_single_of_mem c (Finset.mem_range.mpr hc)
  intro b hb hbc
  rw [h0 b (Finset.mem_range.mp hb) hbc, zero_mul]

instance : IsTrans ERat (fun a b => ERat.blt a b = true) :=
  ⟨fun _ _ _ h1 h2 => ERat.blt_trans h1 h2⟩

theorem chainB_iff_chain {β : Type} (f : β → β → Bool) (l : List β) :
    chainB f l = true ↔ List.Chain' (fun a b => f a b = true) l := by
  induction l with
  | nil => simp [chainB]
  | cons a t ih =>
    cases t with
    | nil => simp [chainB]
    | cons b t2 =>
      rw [chainB, Bool.and_eq_true, List.chain'_cons, ih]

theorem chainB_getD_blt {l : List ERat} (h : chainB ERat.blt l = true)
    {a b : ℕ} (hab : a < b) (hb : b < l.length) :
    ERat.blt (l.getD a ERat.inf) (l.getD b ERat.inf) = true := by
  have hc := (chainB_iff_chain ERat.blt l).mp h
  have hp := List.chain'_iff_pairwise.mp hc
  rw [List.getD_eq_getElem l ERat.inf (lt_trans hab hb), List.getD_eq_getElem l ERat.inf hb]
  exact List.pairwise_iff_get.mp hp ⟨a, lt_trans hab hb⟩ ⟨b, hb⟩ hab

theorem chainB_getD_ble {l : List ERat} (h : chainB ERat.blt l = true)
    {a b : ℕ} (hab : a ≤ b) (hb : b < l.length) :
    ERat.ble (l.getD a ERat.inf) (l.getD b ERat.inf) = true := by
  rcases Nat.lt_or_ge a b with hlt | hge
  · exact ERat.ble_of_blt (chainB_getD_blt h hlt hb)
  · have : a = b := Nat.le_antisymm hab hge
    rw [this]
    exact ERat.ble_refl _

theorem getD_map_lt {γ δ : Type} (f : γ → δ) (l : List γ) (j : ℕ) (hj : j < l.length)
    (d' : δ) (d : γ) : (l.map f).getD j d' = f (l.getD j d) := by
  rw [List.getD_eq_getElem (l.map f) d' (by simpa using hj),
    List.getD_eq_getElem l d hj, List.getElem_map]

theorem getD_map_range {γ : Type} (n k : ℕ) (hk : k < n) (g : ℕ → γ) (d : γ) :
    ((List.range n).map g).getD k d = g k := by
  rw [List.getD_eq_getElem _ _ (by simpa using hk), List.getElem_map, List.getElem_range]

theorem listMapO_total {β γ : Type} (f : β → Option γ) (v : β → γ) (l : List β)
    (h : ∀ b ∈ l, f b = some (v b)) : listMapO f l = some (l.map v) := by
  induction l with
  | nil => rfl
  | cons a t ih =>
    rw [listMapO, h a (List.mem_cons_self a t),
      ih (fun b hb => h b (List.mem_cons_of_mem a hb)), List.map_cons]

theorem listMapO_some_shape {β γ : Type} (f : β → Option γ) (l : List β) (r : List γ)
    (h : listMapO f l = some r) :
    r.length = l.length ∧ ∀ y ∈ r, ∃ b ∈ l, f b = some y := by
  induction l generalizing r with
  | nil =>
    rw [listMapO] at h
    cases h
    exact ⟨rfl, by simp⟩
  | cons a t ih =>
    rw [listMapO] at h
    cases hfa : f a with
    | none => rw [hfa] at h; cases h
    | some va =>
      cases hmt : listMapO f t with
      | none => rw [hfa, hmt] at h; cases h
      | some vt =>
        rw [hfa, hmt] at h
        cases h
        obtain ⟨hlen, hmem⟩ := ih vt hmt
        refine ⟨by simp [hlen], ?_⟩
        intro y hy
        rcases List.mem_cons.mp hy with hy1 | hy2
        · exact ⟨a, List.mem_cons_self a t, hy1 ▸ hfa⟩
        · obtain ⟨b, hb, hfb⟩ := hmem y hy2
          exact ⟨b, List.mem_cons_of_mem a hb, hfb⟩

theorem stehfest_total (f : ℚ → Option (List ℚ)) (v : ℚ → List ℚ) (times : List ℚ)
    (order : ℕ) (w : ℕ → ℚ) (ln2 : ℚ) (m : ℕ) (h : ∀ s, f s = some (v s)) :
    stehfest f times order w ln2 m = some (times.map (fun t =>
      (List.range m).map (fun j =>
        ln2 / t *
          ((List.range order).map
            (fun k => w (k + 1) * ((v (((k : ℚ) + 1) * ln2 / t)).getD j 0))).sum))) := by
  unfold stehfest
  apply listMapO_total
  intro t _
  rw [listMapO_total _ (fun (k : ℕ) => v (((k : ℚ) + 1) * ln2 / t)) _ (fun k _ => h _)]
  rw [Option.map_some']
  congr 1
  refine List.map_congr_left (fun j _ => ?_)
  congr 1
  congr 1
  refine List.map_congr_left (fun k hk => ?_)
  rw [getD_map_range order k (List.mem_range.mp hk)]

theorem stehfest_shape (f : ℚ → Option (List ℚ)) (times : List ℚ) (order : ℕ)
    (w : ℕ → ℚ) (ln2 : ℚ) (m : ℕ) (g : List (List ℚ))
    (h : stehfest f times order w ln2 m = some g) :
    g.length = times.length ∧ ∀ row ∈ g, row.length = m := by
  obtain ⟨hlen, hmem⟩ := listMapO_some_shape _ _ _ h
  refine ⟨hlen, fun row hrow => ?_⟩
  obtain ⟨t, _, hft⟩ := hmem row hrow
  cases hmo : listMapO (fun (k : ℕ) => f (((k : ℚ) + 1) * ln2 / t)) (List.range order) with
  | none => rw [hmo] at hft; cases hft
  | some fs =>
    rw [hmo, Option.map_some'] at hft
    cases hft
    simp

/-- Total value of the Laplace solver; `lap_some` below shows the solver
returns it whenever there are at least two zones (with a single zone the
call raises, and the total value is the empty list). -/
def lapTotal (F : Ops ℚ) (solver : (ℕ → ℕ → ℚ) → (ℕ → ℚ) → ℕ → (ℕ → ℚ)) (s : ℚ)
    (rad rpart : List ERat) (Spart Tpart : List ℚ) (Qw : ℚ) : List ℚ :=
  match lap_transgwflow_cyl F solver s rad rpart Spart Tpart Qw with
  | some v => v
  | none => []

theorem lap_some (F : Ops ℚ) (solver : (ℕ → ℕ → ℚ) → (ℕ → ℚ) → ℕ → (ℕ → ℚ)) (s : ℚ)
    (rad rpart : List ERat) (Spart Tpart : List ℚ) (Qw : ℚ) (hT : 2 ≤ Tpart.length) :
    lap_transgwflow_cyl F solver s rad rpart Spart Tpart Qw =
      some (lapTotal F solver s rad rpart Spart Tpart Qw) := by
  unfold lapTotal
  have h1 : ¬ (Tpart.length = 1) := by omega
  obtain ⟨mb, hmb, -⟩ :=
    assembleMb_cells F Tpart.length hT (CsFun F s Spart Tpart) (tmpFun F Spart Tpart) rpart
  simp [lap_transgwflow_cyl, h1, hmb]

/-- Every requested radius at or beyond the outermost partition radius
gets head `0` from the Laplace solver's total value: in the multi-zone
path the entry is zero-filled; a single-zone call raises, so its total
value is empty and reads as the fill `0`. -/
theorem lap_entry_zero (F : Ops ℚ) (hfin : ∀ x, F.fin0 x = x)
    (solver : (ℕ → ℕ → ℚ) → (ℕ → ℚ) → ℕ → (ℕ → ℚ)) (s : ℚ)
    (rad rpart : List ERat) (Spart Tpart : List ℚ) (Qw : ℚ)
    (hsort : chainB ERat.blt rpart = true)
    (hlenr : rpart.length = Tpart.length + 1)
    (hT1 : 1 ≤ Tpart.length)
    (jr : ℕ) (hjr : jr < rad.length)
    (hre : ERat.ble (rpart.getD (rpart.length - 1) ERat.inf) (rad.getD jr ERat.inf) = true) :
    (lapTotal F solver s rad rpart Spart Tpart Qw).getD jr 0 = 0 := by
  have hblt : ERat.blt (rad.getD jr ERat.inf) (rpart.getD (rpart.length - 1) ERat.inf)
      = false := ERat.not_blt_of_ble hre
  by_cases h1 : Tpart.length = 1
  · unfold lapTotal
    simp only [lap_transgwflow_cyl, h1, if_pos]
    simp
  · have hp2 : 2 ≤ Tpart.length := by omega
    obtain ⟨mb, hmb, -⟩ :=
      assembleMb_cells F Tpart.length hp2 (CsFun F s Spart Tpart) (tmpFun F Spart Tpart) rpart
    unfold lapTotal
    simp only [lap_transgwflow_cyl, h1, if_false, hmb, Option.map_some']
    rw [lapMultiVec]
    rw [getD_map_lt _ rad jr hjr 0 ERat.inf]
    rw [multiHeadEntry]
    rw [foldl_keep]
    · exact hfin 0
    · intro j hj
      have hjp : j < Tpart.length := List.mem_range.mp hj
      have hble : ERat.ble (rpart.getD (j + 1) ERat.inf)
          (rpart.getD (rpart.length - 1) ERat.inf) = true := by
        apply chainB_getD_ble hsort
        · omega
        · omega
      have : ERat.blt (rad.getD jr ERat.inf) (rpart.getD (j + 1) ERat.inf) = false := by
        rcases Bool.eq_false_or_eq_true
            (ERat.blt (rad.getD jr ERat.inf) (rpart.getD (j + 1) ERat.inf)) with hc | hc
        · have := ERat.blt_of_blt_of_ble (ERat.blt_of_blt_of_ble hc hble) hre
          rw [ERat.blt_irrefl] at this
          cases this
        · exact hc
      rw [this, Bool.and_false]

theorem diagOf_length (g : List (List ℚ)) : (diagOf g).length = g.length := by
  simp [diagOf, List.length_mapIdx]

theorem diagOf_map_add (g : List (List ℚ)) (c : ℚ)
    (hsq : ∀ i, (hi : i < g.length) → i < (g.get ⟨i, hi⟩).length) :
    diagOf (g.map (fun row => row.map (fun x => x + c))) =
      (diagOf g).map (fun x => x + c) := by
  unfold diagOf
  apply List.ext_get
  · simp [List.length_mapIdx]
  · intro n h1 h2
    have hn : n < g.length := by simpa [List.length_mapIdx] using h1
    have hmap : n < (g.map (fun row => row.map (fun x => x + c))).length := by simpa using hn
    rw [List.get_mapIdx _ _ n hmap]
    rw [List.get_map]
    rw [List.get_map, List.get_mapIdx _ _ n hn]
    have hrow : n < (g.get ⟨n, hn⟩).length := hsq n hn
    rw [List.getD_eq_getElem _ _ (by simpa using hrow), List.getD_eq_getElem _ _ hrow]
    simp

/-! Computation rules on the float carrier. -/

theorem FVal.someAdd (a b : ℚ) : (⟨some a⟩ : FVal) + ⟨some b⟩ = ⟨some (a + b)⟩ := rfl

theorem FVal.someMul (a b : ℚ) : (⟨some a⟩ : FVal) * ⟨some b⟩ = ⟨some (a * b)⟩ := rfl

theorem FVal.someDiv (a b : ℚ) (hb : b ≠ 0) :
    (⟨some a⟩ : FVal) / ⟨some b⟩ = ⟨some (a / b)⟩ := by
  show Div.div _ _ = _
  simp [Div.div, hb]

theorem FVal.addNoneRight (x : FVal) : x + ⟨none⟩ = ⟨none⟩ := by
  obtain ⟨v⟩ := x
  cases v <;> rfl

theorem FVal.mulNoneRight (x : FVal) : x * ⟨none⟩ = ⟨none⟩ := by
  obtain ⟨v⟩ := x
  cases v <;> rfl

theorem FVal.one_def : (1 : FVal) = ⟨some 1⟩ := rfl

theorem FVal.two_def : (2 : FVal) = ⟨some 2⟩ := rfl

theorem FVal.zero_def : (0 : FVal) = ⟨some 0⟩ := rfl

theorem maskF_isFin (x : FVal) : (maskF x).isFin = true := by
  unfold maskF
  cases hx : x.isFin
  · rw [if_neg (by simp [hx])]
    rfl
  · rw [if_pos (by simp [hx])]
    exact hx

/-! Spec-side abbreviations for the single-zone coefficient formulas
(the claim text): `Cs = sqrt(s)*sqrt(S/T)` and `Qs = (Qw/(2*pi*T))/s`. -/

/-- The claim formula `Cs = sqrt(s) * sqrt(S/T)`. -/
def CsOf (F : Ops ℚ) (s S T : ℚ) : ℚ := F.sqrt s * F.sqrt (S / T)

/-- The claim formula `Qs = (Qw/(2*pi*T))/s`. -/
def QsOf (F : Ops ℚ) (s T Qw : ℚ) : ℚ := Qw / (2 * F.pi * T) / s

/-- C3: in the multi-zone path, for every requested radius `r`, the head
returned equals `X[2i]*I0(Cs[i]*r) + X[2i+1]*K0(Cs[i]*r)` where `i` is
the unique zone index satisfying `rpart[i] <= r < rpart[i+1]`, with `X`
the (finite) vector returned by the solve of the assembled system. -/
theorem claim_C3 (F : Ops ℚ) (hofQ : ∀ x, F.ofQ x = x) (hfin : ∀ x, F.fin0 x = x)
    (p : ℕ) (Cs X : ℕ → ℚ) (rad rpart : List ERat)
    (hlen : rpart.length = p + 1) (hsort : chainB ERat.blt rpart = true)
    (i : ℕ) (hi : i < p) (re : ERat)
    (h1 : ERat.ble (rpart.getD i ERat.inf) re = true)
    (h2 : ERat.blt re (rpart.getD (i + 1) ERat.inf) = true)
    (jr : ℕ) (hjr : jr < rad.length) (hre : rad.getD jr ERat.inf = re) :
    multiHeadEntry F p Cs X rpart re =
      X (2*i) * F.i0 (Cs i * re.toQ) + X (2*i+1) * F.k0 (Cs i * re.toQ) ∧
    (∀ j, j < p → ERat.ble (rpart.getD j ERat.inf) re = true →
      ERat.blt re (rpart.getD (j + 1) ERat.inf) = true → j = i) ∧
    (lapMultiVec F p Cs X rad rpart).getD jr 0 =
      X (2*i) * F.i0 (Cs i * re.toQ) + X (2*i+1) * F.k0 (Cs i * re.toQ) := by
  have huniq : ∀ j, j < p → ERat.ble (rpart.getD j ERat.inf) re = true →
      ERat.blt re (rpart.getD (j + 1) ERat.inf) = true → j = i := by
    intro j hj hbj hlj
    by_contra hne
    rcases Nat.lt_or_ge j i with hji | hij
    · have hb : ERat.ble (rpart.getD (j+1) ERat.inf) (rpart.getD i ERat.inf) = true :=
        chainB_getD_ble hsort (by omega) (by omega)
      have hrr : ERat.blt re re = true :=
        ERat.blt_of_blt_of_ble (ERat.blt_of_blt_of_ble hlj hb) h1
      rw [ERat.blt_irrefl] at hrr
      cases hrr
    · have hij' : i < j := by omega
      have hb : ERat.ble (rpart.getD (i+1) ERat.inf) (rpart.getD j ERat.inf) = true :=
        chainB_getD_ble hsort (by omega) (by omega)
      have hrr : ERat.blt re re = true :=
        ERat.blt_of_blt_of_ble (ERat.blt_of_blt_of_ble h2 hb) hbj
      rw [ERat.blt_irrefl] at hrr
      cases hrr
  have hcond : ∀ j ∈ List.range p,
      ((ERat.ble (rpart.getD j ERat.inf) re &&
        ERat.blt re (rpart.getD (j+1) ERat.inf)) = true ↔ j = i) := by
    intro j hj
    constructor
    · intro hc
      rw [Bool.and_eq_true] at hc
      exact huniq j (List.mem_range.mp hj) hc.1 hc.2
    · intro hji
      subst hji
      rw [h1, h2]
      rfl
  have hmain : multiHeadEntry F p Cs X rpart re =
      X (2*i) * F.i0 (Cs i * F.ofQ re.toQ) + X (2*i+1) * F.k0 (Cs i * F.ofQ re.toQ) := by
    unfold multiHeadEntry
    exact foldl_pick _ _ i (List.range p) 0 hcond (List.mem_range.mpr hi)
  refine ⟨by rw [hmain, hofQ], huniq, ?_⟩
  unfold lapMultiVec
  rw [getD_map_lt _ rad jr hjr 0 ERat.inf, hre, hfin]
  have hX : (fun j => F.fin0 (X j)) = X := funext (fun j => hfin (X j))
  rw [hX, hmain, hofQ]

/-- Witness for C3 at a concrete two-zone input with the radius in the
second zone. -/
theorem claim_C3_witness :
    multiHeadEntry idOps 2 (fun _ => 1) (fun j => (j : ℚ))
        [ERat.fin 0, ERat.fin 1, ERat.inf] (ERat.fin 2) =
      (2 : ℚ) * idOps.i0 (1 * (ERat.fin 2).toQ) + 3 * idOps.k0 (1 * (ERat.fin 2).toQ) :=
  (claim_C3 idOps (fun _ => rfl) (fun _ => rfl) 2 (fun _ => 1) (fun j => (j : ℚ))
    [ERat.fin 2] [ERat.fin 0, ERat.fin 1, ERat.inf] rfl (by decide) 1 (by decide)
    (ERat.fin 2) (by decide) (by decide) 0 (by decide) rfl).1

/-- C2: for at least two zones, if `rpart[0]` is finite and positive, the
innermost (flux) row of the assembled system carries `K1` and `I1` scaled
by `Cs[0]*rpart[0]` (and nothing else); if the outer boundary is finite, a
closure row pins the two coefficients of the last zone via `K0` and `I0`
at the outer boundary; if the outer boundary is infinite, the last row
forces the I0-coefficient of the last zone to zero in any solution of the
system. -/
theorem claim_C2 (F : Ops ℚ) (hofQ : ∀ x, F.ofQ x = x) (s : ℚ)
    (Spart Tpart : List ℚ) (rpart : List ERat) (hp : 2 ≤ Tpart.length) :
    ∃ mb, assembleMb F Tpart.length (CsFun F s Spart Tpart) (tmpFun F Spart Tpart) rpart
        = some mb ∧
      (∀ q : ℚ, rpart.getD 0 ERat.inf = ERat.fin q → 0 < q →
        matFromMb mb 0 1 =
          CsFun F s Spart Tpart 0 * q * F.k1 (CsFun F s Spart Tpart 0 * q) ∧
        matFromMb mb 0 2 =
          -(CsFun F s Spart Tpart 0 * q * F.i1 (CsFun F s Spart Tpart 0 * q)) ∧
        matFromMb mb 0 0 = 0 ∧
        (∀ j, 3 ≤ j → matFromMb mb 0 j = 0)) ∧
      (∀ R : ℚ, rpart.getD (rpart.length - 1) ERat.inf = ERat.fin R →
        matFromMb mb (2*Tpart.length-1) (2*Tpart.length-2) =
          F.i0 (CsFun F s Spart Tpart (Tpart.length-1) * R) ∧
        matFromMb mb (2*Tpart.length-1) (2*Tpart.length-1) =
          F.k0 (CsFun F s Spart Tpart (Tpart.length-1) * R) ∧
        (∀ j, j ≠ 2*Tpart.length-2 → j ≠ 2*Tpart.length-1 →
          matFromMb mb (2*Tpart.length-1) j = 0)) ∧
      (rpart.getD (rpart.length - 1) ERat.inf = ERat.inf →
        matFromMb mb (2*Tpart.length-1) (2*Tpart.length-2) = 1 ∧
        (∀ j, j ≠ 2*Tpart.length-2 → matFromMb mb (2*Tpart.length-1) j = 0) ∧
        (∀ X V0, SolvesSystem (matFromMb mb) (2*Tpart.length) X (Vvec V0) →
          X (2*Tpart.length-2) = 0)) := by
  obtain ⟨mb, hmb, h11, h02, h2r, h3r, h20, h4c, hbig⟩ :=
    assembleMb_cells F Tpart.length hp (CsFun F s Spart Tpart) (tmpFun F Spart Tpart) rpart
  set p := Tpart.length with hpdef
  have hrow_last : ∀ routerFin : Prop, ∀ j, j ≠ 2*p-2 → j ≠ 2*p-1 →
      matFromMb mb (2*p-1) j = 0 := by
    intro _ j hj1 hj2
    by_cases e1 : j = 2*p+1
    · subst e1
      rw [matFromMb, if_pos (by omega)]
      exact hbig _ _ (by omega)
    · by_cases e2 : j = 2*p
      · subst e2
        rw [matFromMb, if_neg (by omega), if_pos (by omega)]
        exact hbig _ _ (by omega)
      · by_cases e3 : j = 2*p-3
        · subst e3
          rw [matFromMb, if_neg (by omega), if_neg (by omega), if_neg (by omega),
            if_neg (by omega), if_pos (by omega)]
          exact h4c
        · rw [matFromMb, if_neg (by omega), if_neg (by omega), if_neg (by omega),
            if_neg (by omega), if_neg (by omega)]
  refine ⟨mb, hmb, ?_, ?_, ?_⟩
  · intro q hq hqpos
    have hblt : ERat.blt (ERat.fin 0) (rpart.getD 0 ERat.inf) = true := by
      rw [hq]
      simp [ERat.blt]
      exact hqpos
    refine ⟨?_, ?_, ?_, ?_⟩
    · rw [matFromMb, if_neg (by omega), if_pos (by omega), h11, if_pos hblt, hq]
      simp [ERat.toQ, hofQ]
    · rw [matFromMb, if_pos (by omega), h02, if_pos hblt, hq]
      simp [ERat.toQ, hofQ]
    · rw [matFromMb, if_neg (by omega), if_neg (by omega), if_pos (by omega)]
      exact h20
    · intro j hj
      rw [matFromMb, if_neg (by omega), if_neg (by omega), if_neg (by omega),
        if_neg (by omega), if_neg (by omega)]
  · intro R hR
    have hblt : ERat.blt (rpart.getD (rpart.length - 1) ERat.inf) ERat.inf = true := by
      rw [hR]
      rfl
    refine ⟨?_, ?_, hrow_last True⟩
    · rw [matFromMb, if_neg (by omega), if_neg (by omega), if_neg (by omega),
        if_pos (by omega), h3r, if_pos hblt, hR]
      simp [ERat.toQ, hofQ]
    · rw [matFromMb, if_neg (by omega), if_neg (by omega), if_pos (by omega), h2r,
        if_pos hblt, hR]
      simp [ERat.toQ, hofQ]
  · intro hR
    have hblt : ERat.blt (rpart.getD (rpart.length - 1) ERat.inf) ERat.inf = false := by
      rw [hR]
      rfl
    have hone : matFromMb mb (2*p-1) (2*p-2) = 1 := by
      rw [matFromMb, if_neg (by omega), if_neg (by omega), if_neg (by omega),
        if_pos (by omega), h3r, hblt]
      rfl
    have hrow0 : ∀ j, j ≠ 2*p-2 → matFromMb mb (2*p-1) j = 0 := by
      intro j hj1
      by_cases e0 : j = 2*p-1
      · subst e0
        rw [matFromMb, if_neg (by omega), if_neg (by omega), if_pos (by omega), h2r, hblt]
        rfl
      · exact hrow_last True j hj1 e0
    refine ⟨hone, hrow0, ?_⟩
    intro X V0 hS
    have hlt : 2*p-1 < 2*p := by omega
    have hrow := hS (2*p-1) hlt
    rw [mulVecRow_single (matFromMb mb) (2*p) X (2*p-1) (2*p-2) (by omega)
      (fun j hjn hjc => hrow0 j hjc), hone, one_mul] at hrow
    rw [hrow, Vvec, if_neg (by omega)]

/-- Witness for C2: assembly succeeds at a concrete two-zone input. -/
theorem claim_C2_witness :
    ∃ mb, assembleMb idOps 2 (CsFun idOps 1 [1, 1] [1, 1]) (tmpFun idOps [1, 1] [1, 1])
        [ERat.fin 1, ERat.fin 2, ERat.inf] = some mb :=
  (claim_C2 idOps (fun _ => rfl) 1 [1, 1] [1, 1]
    [ERat.fin 1, ERat.fin 2, ERat.inf] (by decide)).elim
    (fun mb h => ⟨mb, h.1⟩)

/-- C5 (amended): with the well at the origin (`rpart[0] = 0`), forcing a
single zone through the multi-zone equation-system path yields exactly the
same head values as the dedicated single-zone path, for every Laplace
variable, every nonnegative radius and every solution `X` of the assembled
2x2 system (nondegeneracy `I0(Cs*router) ≠ 0` assumed for a finite outer
boundary).  With `rpart[0] > 0` the forced multi-zone path instead raises
an index error (see the counterexample), so the agreement claimed for all
single-zone inputs fails there. -/
theorem claim_C5_amended (F : Ops ℚ) (hofQ : ∀ x, F.ofQ x = x) (hfin : ∀ x, F.fin0 x = x)
    (s S T Qw : ℚ) (router : ERat)
    (hcase : router = ERat.inf ∨
      ∃ R : ℚ, router = ERat.fin R ∧ F.i0 (CsOf F s S T * R) ≠ 0)
    (rad : List ERat) (hrad : ∀ re ∈ rad, ERat.ble (ERat.fin 0) re = true)
    (X : ℕ → ℚ) (mb : ℕ → ℕ → ℚ)
    (hmb : assembleMb F 1 (CsFun F s [S] [T]) (tmpFun F [S] [T]) [ERat.fin 0, router]
      = some mb)
    (hX : SolvesSystem (matFromMb mb) 2 X (Vvec (Qw / (2 * F.pi * T) / s))) :
    lapMultiVec F 1 (CsFun F s [S] [T]) X rad [ERat.fin 0, router] =
      lapSingleVec F s rad [ERat.fin 0, router] [S] [T] Qw := by
  have hmulti : ∀ re, multiHeadEntry F 1 (CsFun F s [S] [T]) (fun j => F.fin0 (X j))
      [ERat.fin 0, router] re =
      if ERat.ble (ERat.fin 0) re && ERat.blt re router then
        F.fin0 (X 0) * F.i0 (CsFun F s [S] [T] 0 * F.ofQ re.toQ) +
          F.fin0 (X 1) * F.k0 (CsFun F s [S] [T] 0 * F.ofQ re.toQ)
      else 0 := fun re => rfl
  have hlmulti : lapMultiVec F 1 (CsFun F s [S] [T]) X rad [ERat.fin 0, router] =
      rad.map (fun re => F.fin0 (multiHeadEntry F 1 (CsFun F s [S] [T])
        (fun j => F.fin0 (X j)) [ERat.fin 0, router] re)) := rfl
  have hsingle : lapSingleVec F s rad [ERat.fin 0, router] [S] [T] Qw =
      rad.map (fun re =>
        if ERat.blt re router then
          (singleCoeffs F (CsOf F s S T) (QsOf F s T Qw) (ERat.fin 0) router).1 *
              F.i0 (CsOf F s S T * F.ofQ re.toQ) +
            (singleCoeffs F (CsOf F s S T) (QsOf F s T Qw) (ERat.fin 0) router).2 *
              F.k0 (CsOf F s S T * F.ofQ re.toQ)
        else 0) := rfl
  rcases hcase with hinf | ⟨R, hRe, hI⟩
  · subst hinf
    have hasm : assembleMb F 1 (CsFun F s [S] [T]) (tmpFun F [S] [T])
        [ERat.fin 0, ERat.inf] =
        some (fwrite (fwrite (fun _ _ => (0:ℚ)) 1 1 1) 3 0 1) := rfl
    rw [hasm] at hmb
    have hmbe : mb = fwrite (fwrite (fun _ _ => (0:ℚ)) 1 1 1) 3 0 1 :=
      (Option.some.inj hmb).symm
    subst hmbe
    have h0' : (0:ℚ) * X 0 + (1 * X 1 + 0) = Qw / (2 * F.pi * T) / s := hX 0 (by omega)
    have h1' : (1:ℚ) * X 0 + (0 * X 1 + 0) = 0 := hX 1 (by omega)
    have hX1 : X 1 = QsOf F s T Qw := by
      show X 1 = Qw / (2 * F.pi * T) / s
      linarith
    have hX0 : X 0 = 0 := by linarith
    rw [hlmulti, hsingle]
    refine List.map_congr_left (fun re hre => ?_)
    rw [hmulti re, hrad re hre, Bool.true_and, hfin]
    have hsc : singleCoeffs F (CsOf F s S T) (QsOf F s T Qw) (ERat.fin 0) ERat.inf =
        (0, QsOf F s T Qw) := rfl
    rw [hsc]
    by_cases hb : ERat.blt re ERat.inf = true
    · rw [if_pos hb, if_pos hb, hfin, hfin, hX0, hX1]
      rfl
    · rw [if_neg hb, if_neg hb]
  · subst hRe
    have hasm : assembleMb F 1 (CsFun F s [S] [T]) (tmpFun F [S] [T])
        [ERat.fin 0, ERat.fin R] =
        some (fwrite (fwrite (fwrite (fwrite (fun _ _ => (0:ℚ)) 1 1 1) 3 0 1)
          2 1 (F.k0 (CsFun F s [S] [T] 0 * F.ofQ R)))
          3 0 (F.i0 (CsFun F s [S] [T] 0 * F.ofQ R))) := rfl
    rw [hasm] at hmb
    have hmbe : mb = fwrite (fwrite (fwrite (fwrite (fun _ _ => (0:ℚ)) 1 1 1) 3 0 1)
          2 1 (F.k0 (CsFun F s [S] [T] 0 * F.ofQ R)))
          3 0 (F.i0 (CsFun F s [S] [T] 0 * F.ofQ R)) :=
      (Option.some.inj hmb).symm
    subst hmbe
    have hIq : F.i0 (CsOf F s S T * F.ofQ R) ≠ 0 := by
      rw [hofQ]
      exact hI
    have h0' : (0:ℚ) * X 0 + (1 * X 1 + 0) = Qw / (2 * F.pi * T) / s := hX 0 (by omega)
    have h1' : F.i0 (CsOf F s S T * F.ofQ R) * X 0 +
        (F.k0 (CsOf F s S T * F.ofQ R) * X 1 + 0) = 0 := hX 1 (by omega)
    have hX1 : X 1 = QsOf F s T Qw := by
      show X 1 = Qw / (2 * F.pi * T) / s
      linarith
    rw [hX1] at h1'
    have hX0 : X 0 = (-(QsOf F s T Qw * F.k0 (CsOf F s S T * F.ofQ R))) /
        F.i0 (CsOf F s S T * F.ofQ R) := by
      rw [eq_div_iff hIq]
      linear_combination h1'
    rw [hlmulti, hsingle]
    refine List.map_congr_left (fun re hre => ?_)
    rw [hmulti re, hrad re hre, Bool.true_and, hfin]
    have hsc : singleCoeffs F (CsOf F s S T) (QsOf F s T Qw) (ERat.fin 0) (ERat.fin R) =
        ((-(QsOf F s T Qw * F.k0 (CsOf F s S T * F.ofQ R))) /
            F.i0 (CsOf F s S T * F.ofQ R), QsOf F s T Qw) := rfl
    rw [hsc]
    by_cases hb : ERat.blt re (ERat.fin R) = true
    · rw [if_pos hb, if_pos hb, hfin, hfin, hX0, hX1]
      rfl
    · rw [if_neg hb, if_neg hb]

/-- Counterexample for C5 as stated: for a single zone with a positive
well radius, the forced multi-zone assembly writes out of bounds
(`Mb[0, 2]` in a 5x2 band array) and raises, while the single-zone path
returns a head value; so the two paths do not agree on all valid
single-zone inputs. -/
theorem claim_C5_cx :
    assembleMb idOps 1 (CsFun idOps 1 [1] [1]) (tmpFun idOps [1] [1])
        [ERat.fin 1, ERat.fin 2] = none ∧
    lapSingleVec idOps 1 [ERat.fin 1] [ERat.fin 1, ERat.fin 2] [1] [1] 1 = [0] := by
  constructor
  · rfl
  · norm_num [lapSingleVec, singleCoeffs, idOps_sqrt, idOps_i0, idOps_i1, idOps_k0,
      idOps_k1, idOps_pi, idOps_ofQ, ERat.blt, ERat.toQ]
    rw [if_neg (by decide : ¬(ERat.fin 2 = ERat.inf))]
    norm_num

/-- Witness for C5 (amended) at a concrete input with zero pumping rate
and the trivial exact solution. -/
theorem claim_C5_witness :
    lapMultiVec idOps 1 (CsFun idOps 1 [1] [1]) (fun _ => 0) [ERat.fin 1]
        [ERat.fin 0, ERat.inf] =
      lapSingleVec idOps 1 [ERat.fin 1] [ERat.fin 0, ERat.inf] [1] [1] 0 :=
  claim_C5_amended idOps (fun _ => rfl) (fun _ => rfl) 1 1 1 0 ERat.inf
    (Or.inl rfl) [ERat.fin 1] (by decide) (fun _ => 0) _ rfl
    (by
      intro i hi
      simp [mulVecRow, Vvec])

theorem nanOps_sqrt (x : FVal) : nanOps.sqrt x = x := rfl

theorem nanOps_i0 (x : FVal) : nanOps.i0 x = if x = 0 then 1 else x := rfl

theorem nanOps_i1 (x : FVal) : nanOps.i1 x = x := rfl

theorem nanOps_k0 (x : FVal) : nanOps.k0 x = if x = 0 then ⟨none⟩ else x := rfl

theorem nanOps_k1 (x : FVal) : nanOps.k1 x = x := rfl

theorem nanOps_pi : nanOps.pi = ⟨some 3⟩ := rfl

theorem nanOps_ofQ (q : ℚ) : nanOps.ofQ q = ⟨some q⟩ := rfl

theorem nanOps_fin0 (x : FVal) : nanOps.fin0 x = maskF x := rfl

/-- C4: for every input to `lap_transgwflow_cyl`, any non-finite
coefficient produced by the linear solve is replaced with zero
(`X = X*np.isfinite(X)`, source line 1103) rather than propagated, and
the output array is masked entrywise the same way (source line 1114), so
every head array the call returns is everywhere finite — for any solver
output whatsoever, a singular or ill-conditioned system included.  (The
single-zone branch contains no masking, but it is unreachable: a
1-element transmissivity array raises `TypeError` at
`parts = len(np.squeeze(Tpart))` first, so every array the call returns
comes from the multi-zone path.) -/
theorem claim_C4 (F : Ops FVal) (hf : ∀ x, F.fin0 x = maskF x)
    (solver : (ℕ → ℕ → FVal) → (ℕ → FVal) → ℕ → (ℕ → FVal)) (s : FVal)
    (rad rpart : List ERat) (Spart Tpart : List FVal) (Qw : FVal) (X : ℕ → FVal)
    (v : List FVal)
    (hv : lap_transgwflow_cyl F solver s rad rpart Spart Tpart Qw = some v) :
    (∀ j, (F.fin0 (X j)).isFin = true) ∧ ∀ y ∈ v, y.isFin = true := by
  refine ⟨fun j => by rw [hf]; exact maskF_isFin _, ?_⟩
  simp only [lap_transgwflow_cyl] at hv
  by_cases h1 : Tpart.length = 1
  · rw [if_pos h1] at hv
    cases hv
  · rw [if_neg h1] at hv
    obtain ⟨mb, -, hveq⟩ := Option.map_eq_some'.mp hv
    intro y hy
    rw [← hveq] at hy
    rcases List.mem_map.mp hy with ⟨re, -, hyv⟩
    rw [← hyv, hf]
    exact maskF_isFin _

/-- Witness for C4: at a concrete two-zone input whose solver output is
non-finite everywhere, the call returns a head array and it is
everywhere finite. -/
theorem claim_C4_witness :
    (nanOps.fin0 ((fun _ => (⟨none⟩ : FVal)) 0)).isFin = true ∧
    ∀ y ∈ lapMultiVec nanOps ([1, 1] : List FVal).length
        (CsFun nanOps 1 [1, 1] [1, 1]) (fun _ => (⟨none⟩ : FVal)) [ERat.fin 1]
        [ERat.fin 0, ERat.fin 1, ERat.inf], y.isFin = true := by
  have h := claim_C4 nanOps (fun _ => rfl) (fun _ _ _ => fun _ => ⟨none⟩) 1
    [ERat.fin 1] [ERat.fin 0, ERat.fin 1, ERat.inf] [1, 1] [1, 1] 1
    (fun _ => ⟨none⟩) _ rfl
  exact ⟨h.1 0, h.2⟩

theorem optChain_peel {c : Prop} [Decidable c] {msg : String} {rest : Option String}
    (h : (if c then some msg else rest) = none) : ¬c ∧ rest = none := by
  by_cases hc : c
  · rw [if_pos hc] at h
    cases h
  · rw [if_neg hc] at h
    exact ⟨hc, h⟩

theorem diskValidate_none_facts {rad : List ERat} {time : List ℚ}
    {Tpart Spart Rpart : List ℚ} {strucGrid : Bool} {rwell : ℚ} {rinf : ERat}
    {stehfestn : ℚ}
    (h : diskValidate rad time Tpart Spart Rpart strucGrid rwell rinf stehfestn = none) :
      (¬ rwell < 0) ∧ ERat.ble rinf (ERat.fin rwell) = false ∧
      chainB (fun a b => decide (a < b)) Rpart = true ∧
      Rpart.any (fun r => decide (r ≤ rwell)) = false ∧
      Rpart.any (fun r => ERat.ble rinf (ERat.fin r)) = false ∧
      (rad.any (fun re => ERat.blt re (ERat.fin rwell)) ||
        rad.any (fun re => ERat.ble re (ERat.fin 0))) = false ∧
      time.any (fun t => decide (t ≤ 0)) = false ∧
      ¬(strucGrid = false ∧ ¬(rad.length = time.length)) ∧
      Tpart.any (fun x => decide (x ≤ 0)) = false ∧
      Spart.any (fun x => decide (x ≤ 0)) = false ∧
      ratIsInt stehfestn = true ∧ ¬(stehfestn ≤ 1) ∧ stehfestn.num % 2 = 0 := by
  unfold diskValidate at h
  obtain ⟨n1, h⟩ := optChain_peel h
  obtain ⟨n2, h⟩ := optChain_peel h
  obtain ⟨n3, h⟩ := optChain_peel h
  obtain ⟨n4, h⟩ := optChain_peel h
  obtain ⟨n5, h⟩ := optChain_peel h
  obtain ⟨n6, h⟩ := optChain_peel h
  obtain ⟨n7, h⟩ := optChain_peel h
  obtain ⟨n8, h⟩ := optChain_peel h
  obtain ⟨n9, h⟩ := optChain_peel h
  obtain ⟨n10, h⟩ := optChain_peel h
  obtain ⟨n11, h⟩ := optChain_peel h
  obtain ⟨n12, h⟩ := optChain_peel h
  obtain ⟨n13, h⟩ := optChain_peel h
  exact ⟨n1, by simpa using n2, by simpa using n3, by simpa using n4,
    by simpa using n5, by simpa using n6, by simpa using n7, n8,
    by simpa using n9, by simpa using n10, by simpa using n11, n12,
    by simpa using n13⟩

theorem theisValidate_none_facts {rad : List ERat} {time : List ℚ} {T S : ℚ}
    {strucGrid : Bool} {rwell : ℚ} {rinf : ERat} {stehfestn : ℚ}
    (h : theisValidate rad time T S strucGrid rwell rinf stehfestn = none) :
      (¬ rwell < 0) ∧ ERat.ble rinf (ERat.fin rwell) = false ∧
      (rad.any (fun re => ERat.blt re (ERat.fin rwell)) ||
        rad.any (fun re => ERat.ble re (ERat.fin 0))) = false ∧
      time.any (fun t => decide (t ≤ 0)) = false ∧
      ¬(strucGrid = false ∧ ¬(rad.length = time.length)) ∧
      (¬ T ≤ 0) ∧ (¬ S ≤ 0) ∧
      ratIsInt stehfestn = true ∧ ¬(stehfestn ≤ 1) ∧ stehfestn.num % 2 = 0 := by
  unfold theisValidate at h
  obtain ⟨n1, h⟩ := optChain_peel h
  obtain ⟨n2, h⟩ := optChain_peel h
  obtain ⟨n3, h⟩ := optChain_peel h
  obtain ⟨n4, h⟩ := optChain_peel h
  obtain ⟨n5, h⟩ := optChain_peel h
  obtain ⟨n6, h⟩ := optChain_peel h
  obtain ⟨n7, h⟩ := optChain_peel h
  obtain ⟨n8, h⟩ := optChain_peel h
  obtain ⟨n9, h⟩ := optChain_peel h
  obtain ⟨n10, h⟩ := optChain_peel h
  exact ⟨n1, by simpa using n2, by simpa using n3, by simpa using n4, n5, n6, n7,
    by simpa using n8, n9, by simpa using n10⟩

/-- C7: each invalid-parameter condition listed for `diskmodel` and
`theis` (non-positive transmissivity or storativity, non-strictly
increasing zone boundaries, zone boundaries not strictly between the well
radius and the outer radius, non-positive times or radii, radii below the
well radius, a Stehfest order that is non-integer, at most one, or odd,
and mismatched radius/time lengths in unstructured mode) makes the
function raise a `ValueError` during its validation chain, before the
Stehfest inversion or any other numeric work is reached (the result is an
error no matter which solver, special functions or inversion weights are
supplied). -/
theorem claim_C7 :
    (∀ (F : Ops ℚ) (solver : (ℕ → ℕ → ℚ) → (ℕ → ℚ) → ℕ → (ℕ → ℚ)) (w : ℕ → ℚ)
      (ln2 : ℚ) (rad : List ERat) (time : List ℚ) (Tpart Spart Rpart : List ℚ)
      (Qw : ℚ) (strucGrid : Bool) (rwell : ℚ) (rinf : ERat) (hinf stehfestn : ℚ),
      ((∃ x ∈ Tpart, x ≤ 0) ∨ (∃ x ∈ Spart, x ≤ 0) ∨
        chainB (fun a b => decide (a < b)) Rpart = false ∨
        (∃ r ∈ Rpart, r ≤ rwell) ∨ (∃ r ∈ Rpart, ERat.ble rinf (ERat.fin r) = true) ∨
        (∃ t ∈ time, t ≤ 0) ∨ (∃ re ∈ rad, ERat.blt re (ERat.fin rwell) = true) ∨
        (∃ re ∈ rad, ERat.ble re (ERat.fin 0) = true) ∨
        ratIsInt stehfestn = false ∨ stehfestn ≤ 1 ∨ ¬(stehfestn.num % 2 = 0) ∨
        (strucGrid = false ∧ ¬(rad.length = time.length))) →
      ∃ msg, diskValidate rad time Tpart Spart Rpart strucGrid rwell rinf stehfestn
          = some msg ∧
        diskmodel F solver w ln2 rad time Tpart Spart Rpart Qw strucGrid rwell rinf
          hinf stehfestn = .err msg) ∧
    (∀ (F : Ops ℚ) (solver : (ℕ → ℕ → ℚ) → (ℕ → ℚ) → ℕ → (ℕ → ℚ)) (w : ℕ → ℚ)
      (ln2 : ℚ) (wsGrid : List (List ℚ)) (rad : List ERat) (time : List ℚ)
      (T S Qw : ℚ) (strucGrid : Bool) (rwell : ℚ) (rinf : ERat) (hinf stehfestn : ℚ),
      (T ≤ 0 ∨ S ≤ 0 ∨ (∃ t ∈ time, t ≤ 0) ∨
        (∃ re ∈ rad, ERat.blt re (ERat.fin rwell) = true) ∨
        (∃ re ∈ rad, ERat.ble re (ERat.fin 0) = true) ∨
        ratIsInt stehfestn = false ∨ stehfestn ≤ 1 ∨ ¬(stehfestn.num % 2 = 0) ∨
        (strucGrid = false ∧ ¬(rad.length = time.length))) →
      ∃ msg, theisValidate rad time T S strucGrid rwell rinf stehfestn = some msg ∧
        theis F solver w ln2 wsGrid rad time T S Qw strucGrid rwell rinf hinf
          stehfestn = .err msg) := by
  constructor
  · intro F solver w ln2 rad time Tpart Spart Rpart Qw strucGrid rwell rinf hinf
      stehfestn hbad
    cases hv : diskValidate rad time Tpart Spart Rpart strucGrid rwell rinf stehfestn with
    | some m => exact ⟨m, rfl, by simp only [diskmodel, hv]⟩
    | none =>
      exfalso
      obtain ⟨g1, g2, g3, g4, g5, g6, g7, g8, g9, g10, g11, g12, g13⟩ :=
        diskValidate_none_facts hv
      rw [Bool.or_eq_false_iff] at g6
      rcases hbad with h | h | h | h | h | h | h | h | h | h | h | h
      · obtain ⟨x, hx, hx0⟩ := h
        have hc : Tpart.any (fun x => decide (x ≤ 0)) = true :=
          List.any_eq_true.mpr ⟨x, hx, by simpa using hx0⟩
        rw [g9] at hc
        cases hc
      · obtain ⟨x, hx, hx0⟩ := h
        have hc : Spart.any (fun x => decide (x ≤ 0)) = true :=
          List.any_eq_true.mpr ⟨x, hx, by simpa using hx0⟩
        rw [g10] at hc
        cases hc
      · rw [h] at g3
        cases g3
      · obtain ⟨x, hx, hx0⟩ := h
        have hc : Rpart.any (fun r => decide (r ≤ rwell)) = true :=
          List.any_eq_true.mpr ⟨x, hx, by simpa using hx0⟩
        rw [g4] at hc
        cases hc
      · obtain ⟨x, hx, hx0⟩ := h
        have hc : Rpart.any (fun r => ERat.ble rinf (ERat.fin r)) = true :=
          List.any_eq_true.mpr ⟨x, hx, hx0⟩
        rw [g5] at hc
        cases hc
      · obtain ⟨x, hx, hx0⟩ := h
        have hc : time.any (fun t => decide (t ≤ 0)) = true :=
          List.any_eq_true.mpr ⟨x, hx, by simpa using hx0⟩
        rw [g7] at hc
        cases hc
      · obtain ⟨x, hx, hx0⟩ := h
        have hc : rad.any (fun re => ERat.blt re (ERat.fin rwell)) = true :=
          List.any_eq_true.mpr ⟨x, hx, hx0⟩
        rw [g6.1] at hc
        cases hc
      · obtain ⟨x, hx, hx0⟩ := h
        have hc : rad.any (fun re => ERat.ble re (ERat.fin 0)) = true :=
          List.any_eq_true.mpr ⟨x, hx, hx0⟩
        rw [g6.2] at hc
        cases hc
      · rw [h] at g11
        cases g11
      · exact g12 h
      · exact h g13
      · exact g8 h
  · intro F solver w ln2 wsGrid rad time T S Qw strucGrid rwell rinf hinf stehfestn hbad
    cases hv : theisValidate rad time T S strucGrid rwell rinf stehfestn with
    | some m => exact ⟨m, rfl, by simp only [theis, hv]⟩
    | none =>
      exfalso
      obtain ⟨g1, g2, g3, g4, g5, g6, g7, g8, g9, g10⟩ :=
        theisValidate_none_facts hv
      rw [Bool.or_eq_false_iff] at g3
      rcases hbad with h | h | h | h | h | h | h | h | h
      · exact g6 h
      · exact g7 h
      · obtain ⟨x, hx, hx0⟩ := h
        have hc : time.any (fun t => decide (t ≤ 0)) = true :=
          List.any_eq_true.mpr ⟨x, hx, by simpa using hx0⟩
        rw [g4] at hc
        cases hc
      · obtain ⟨x, hx, hx0⟩ := h
        have hc : rad.any (fun re => ERat.blt re (ERat.fin rwell)) = true :=
          List.any_eq_true.mpr ⟨x, hx, hx0⟩
        rw [g3.1] at hc
        cases hc
      · obtain ⟨x, hx, hx0⟩ := h
        have hc : rad.any (fun re => ERat.ble re (ERat.fin 0)) = true :=
          List.any_eq_true.mpr ⟨x, hx, hx0⟩
        rw [g3.2] at hc
        cases hc
      · rw [h] at g8
        cases g8
      · exact g9 h
      · exact h g10
      · exact g5 h

/-- Witness for C7: a non-positive transmissivity makes `diskmodel`
return a validation error. -/
theorem claim_C7_witness :
    ∃ msg, diskValidate [] [] [0] [] [] true 0 ERat.inf 2 = some msg ∧
      diskmodel idOps zsolver (fun _ => 1) 1 [] [] [0] [] [] 0 true 0 ERat.inf 0 2
        = .err msg :=
  claim_C7.1 idOps zsolver (fun _ => 1) 1 [] [] [0] [] [] 0 true 0 ERat.inf 0 2
    (Or.inl ⟨0, by decide, le_refl 0⟩)

/-- C6 (amended): for `struc_grid=False` with radius and time arrays of
equal length `N ≥ 2`, `diskmodel` and `theis` return exactly the
diagonal extraction of the structured-grid computation from the same
inputs with `struc_grid=True`: when that computation returns an `N × N`
grid, the unstructured call returns its length-`N` diagonal (`hinf`
added entrywise on both paths, both indexing the grid as
(time, radius)); when it raises — as every single-zone `diskmodel` call
and every `theis` Laplace-branch call does, by the `TypeError` in
`lap_transgwflow_cyl` — the unstructured call raises identically, and
neither returns a diagonal.  For `N = 1` the diagonal extraction is
skipped even on success, since `np.squeeze` turns the length-one radius
array into a 0-d array and the `len(grid_shape) > 0` guard fails, and
the full grid is returned instead (see the counterexample, through the
`well_solution` closed-form branch of `theis`).  The external
`well_solution` grid is indexed by (time, radius) as its caller
requires. -/
theorem claim_C6_amended (F : Ops ℚ) (solver : (ℕ → ℕ → ℚ) → (ℕ → ℚ) → ℕ → (ℕ → ℚ))
    (w : ℕ → ℚ) (ln2 : ℚ) (wsGrid : List (List ℚ)) (rad : List ERat) (time : List ℚ)
    (Tpart Spart Rpart : List ℚ) (T S Qw : ℚ) (rwell : ℚ) (rinf : ERat)
    (hinf stehfestn : ℚ)
    (hlen : rad.length = time.length) (hN : 1 < rad.length)
    (hws1 : wsGrid.length = time.length)
    (hws2 : ∀ row ∈ wsGrid, row.length = rad.length) :
    diskmodel F solver w ln2 rad time Tpart Spart Rpart Qw false rwell rinf hinf
        stehfestn =
      pyMap toDiagRes (diskmodel F solver w ln2 rad time Tpart Spart Rpart Qw true
        rwell rinf hinf stehfestn) ∧
    theis F solver w ln2 wsGrid rad time T S Qw false rwell rinf hinf stehfestn =
      pyMap toDiagRes (theis F solver w ln2 wsGrid rad time T S Qw true rwell rinf
        hinf stehfestn) := by
  have hsq_of : ∀ (g : List (List ℚ)), g.length = time.length →
      (∀ row ∈ g, row.length = rad.length) →
      ∀ i (hi : i < g.length), i < (g.get ⟨i, hi⟩).length := by
    intro g hgl hgrow i hi
    rw [hgrow _ (List.get_mem g i hi)]
    omega
  constructor
  · have hvald : diskValidate rad time Tpart Spart Rpart false rwell rinf stehfestn =
        diskValidate rad time Tpart Spart Rpart true rwell rinf stehfestn := by
      simp [diskValidate, hlen]
    simp only [diskmodel, hvald]
    cases hv : diskValidate rad time Tpart Spart Rpart true rwell rinf stehfestn with
    | some m => rfl
    | none =>
      cases hst : stehfest
          (fun s => lap_transgwflow_cyl F solver s rad
            (ERat.fin rwell :: (Rpart.map ERat.fin ++ [rinf])) Spart Tpart Qw)
          time stehfestn.num.toNat w ln2 rad.length with
      | none => rfl
      | some g =>
        obtain ⟨hgl, hgrow⟩ := stehfest_shape _ _ _ _ _ _ _ hst
        show (if True ∧ rad.length ≠ 1 then
            PyResult.ok (NpResult.vec ((diagOf g).map (fun x => x + hinf)))
          else PyResult.ok (NpResult.grid (g.map (fun row =>
            row.map (fun x => x + hinf))))) =
          pyMap toDiagRes (if true = false ∧ rad.length ≠ 1 then
            PyResult.ok (NpResult.vec ((diagOf g).map (fun x => x + hinf)))
          else PyResult.ok (NpResult.grid (g.map (fun row =>
            row.map (fun x => x + hinf)))))
        rw [if_pos (show True ∧ rad.length ≠ 1 from ⟨trivial, by omega⟩),
          if_neg (show ¬(true = false ∧ rad.length ≠ 1) by simp)]
        show PyResult.ok (NpResult.vec ((diagOf g).map (fun x => x + hinf))) =
          PyResult.ok (NpResult.vec (diagOf (g.map (fun row =>
            row.map (fun x => x + hinf)))))
        rw [diagOf_map_add g hinf (hsq_of g hgl hgrow)]
  · have hvalt : theisValidate rad time T S false rwell rinf stehfestn =
        theisValidate rad time T S true rwell rinf stehfestn := by
      simp [theisValidate, hlen]
    simp only [theis, hvalt]
    cases hv : theisValidate rad time T S true rwell rinf stehfestn with
    | some m => rfl
    | none =>
      by_cases hcase : rwell = 0 ∧ rinf = ERat.inf
      · rw [if_pos hcase]
        show (if True ∧ rad.length ≠ 1 then
            PyResult.ok (NpResult.vec ((diagOf wsGrid).map (fun x => x + hinf)))
          else PyResult.ok (NpResult.grid (wsGrid.map (fun row =>
            row.map (fun x => x + hinf))))) =
          pyMap toDiagRes (if true = false ∧ rad.length ≠ 1 then
            PyResult.ok (NpResult.vec ((diagOf wsGrid).map (fun x => x + hinf)))
          else PyResult.ok (NpResult.grid (wsGrid.map (fun row =>
            row.map (fun x => x + hinf)))))
        rw [if_pos (show True ∧ rad.length ≠ 1 from ⟨trivial, by omega⟩),
          if_neg (show ¬(true = false ∧ rad.length ≠ 1) by simp)]
        show PyResult.ok (NpResult.vec ((diagOf wsGrid).map (fun x => x + hinf))) =
          PyResult.ok (NpResult.vec (diagOf (wsGrid.map (fun row =>
            row.map (fun x => x + hinf)))))
        rw [diagOf_map_add wsGrid hinf (hsq_of wsGrid hws1 hws2)]
      · rw [if_neg hcase]
        cases hst : stehfest
            (fun s => lap_transgwflow_cyl F solver s rad [ERat.fin rwell, rinf]
              [S] [T] Qw) time stehfestn.num.toNat w ln2 rad.length with
        | none => rfl
        | some g =>
          obtain ⟨hgl, hgrow⟩ := stehfest_shape _ _ _ _ _ _ _ hst
          show (if True ∧ rad.length ≠ 1 then
              PyResult.ok (NpResult.vec ((diagOf g).map (fun x => x + hinf)))
            else PyResult.ok (NpResult.grid (g.map (fun row =>
              row.map (fun x => x + hinf))))) =
            pyMap toDiagRes (if true = false ∧ rad.length ≠ 1 then
              PyResult.ok (NpResult.vec ((diagOf g).map (fun x => x + hinf)))
            else PyResult.ok (NpResult.grid (g.map (fun row =>
              row.map (fun x => x + hinf)))))
          rw [if_pos (show True ∧ rad.length ≠ 1 from ⟨trivial, by omega⟩),
            if_neg (show ¬(true = false ∧ rad.length ≠ 1) by simp)]
          show PyResult.ok (NpResult.vec ((diagOf g).map (fun x => x + hinf))) =
            PyResult.ok (NpResult.vec (diagOf (g.map (fun row =>
              row.map (fun x => x + hinf)))))
          rw [diagOf_map_add g hinf (hsq_of g hgl hgrow)]


/-- Counterexample for C6: with `N = 1` (one radius, one time), a `theis`
call in its closed-form branch (`rwell = 0`, `rinf = inf`, where
`well_solution` returns a 1×1 grid) does not return the diagonal of the
structured result: `np.squeeze` makes the length-one radius array
0-dimensional, the `len(grid_shape) > 0` guard fails, and the full 1×1
grid is returned instead of the length-1 diagonal vector. -/
theorem claim_C6_cx :
    theis idOps zsolver (fun _ => 1) 1 [[7]] [ERat.fin 1] [1] 1 1 0 false 0
        ERat.inf 0 2 ≠
      pyMap toDiagRes (theis idOps zsolver (fun _ => 1) 1 [[7]] [ERat.fin 1] [1]
        1 1 0 true 0 ERat.inf 0 2) := by
  decide


/-- Witness for the amended C6: with two radii, two times and two zones
the unstructured results equal the diagonal extraction of the structured
results. -/
theorem claim_C6_witness :
    diskmodel idOps zsolver (fun _ => 1) 1 [ERat.fin 1, ERat.fin 2] [1, 2] [1, 1]
        [1, 1] [1] 0 false 0 ERat.inf 0 2 =
      pyMap toDiagRes (diskmodel idOps zsolver (fun _ => 1) 1
        [ERat.fin 1, ERat.fin 2] [1, 2] [1, 1] [1, 1] [1] 0 true 0 ERat.inf 0 2) ∧
    theis idOps zsolver (fun _ => 1) 1 [[0, 0], [0, 0]] [ERat.fin 1, ERat.fin 2]
        [1, 2] 1 1 0 false 0 ERat.inf 0 2 =
      pyMap toDiagRes (theis idOps zsolver (fun _ => 1) 1 [[0, 0], [0, 0]]
        [ERat.fin 1, ERat.fin 2] [1, 2] 1 1 0 true 0 ERat.inf 0 2) :=
  claim_C6_amended idOps zsolver (fun _ => 1) 1 [[0, 0], [0, 0]]
    [ERat.fin 1, ERat.fin 2] [1, 2] [1, 1] [1, 1] [1] 1 1 0 0 ERat.inf 0 2
    (by decide) (by decide) (by decide) (by decide)


/-! Machinery for C10: the partition vector `[rwell] + Rpart + [rinf]`
is sorted, validation passes, and radii beyond the outer boundary get
head `hinf`. -/

theorem getD_snoc_length {γ : Type} (l : List γ) (x d : γ) :
    (l ++ [x]).getD l.length d = x := by
  induction l with
  | nil => rfl
  | cons a t ih => rw [List.length_cons, List.cons_append, List.getD_cons_succ]; exact ih

theorem rpart_last_fin (rwell Rinf : ℚ) (Rpart : List ℚ) :
    (ERat.fin rwell :: (Rpart.map ERat.fin ++ [ERat.fin Rinf])).getD
      ((ERat.fin rwell :: (Rpart.map ERat.fin ++ [ERat.fin Rinf])).length - 1)
      ERat.inf = ERat.fin Rinf := by
  have hl : (ERat.fin rwell :: (Rpart.map ERat.fin ++ [ERat.fin Rinf])).length - 1
      = Rpart.length + 1 := by simp
  rw [hl, List.getD_cons_succ,
    show Rpart.length = (Rpart.map ERat.fin).length by simp]
  exact getD_snoc_length _ _ _

theorem chainB_fin_snoc (I : ℚ) (R : List ℚ) :
    ∀ (v : ℚ), chainB (fun a b => decide (a < b)) (v :: R) = true →
    (∀ r ∈ v :: R, r < I) →
    chainB ERat.blt (ERat.fin v :: (R.map ERat.fin ++ [ERat.fin I])) = true := by
  induction R with
  | nil =>
    intro v _ hlast
    have hvI : v < I := hlast v (List.mem_cons_self v [])
    simp [chainB, ERat.blt, hvI]
  | cons r R2 ih =>
    intro v hch hlast
    rw [chainB, Bool.and_eq_true] at hch
    have h1 : ERat.blt (ERat.fin v) (ERat.fin r) = true := hch.1
    have h2 := ih r hch.2 (fun x hx => hlast x (List.mem_cons_of_mem v hx))
    simp only [List.map_cons, List.cons_append]
    rw [chainB, Bool.and_eq_true]
    exact ⟨h1, by simpa using h2⟩

theorem diskValidate_eq_none (rad : List ERat) (time : List ℚ)
    (Tpart Spart Rpart : List ℚ) (rwell Rinf stehfestn : ℚ)
    (h1 : 0 ≤ rwell) (h2 : rwell < Rinf)
    (h3 : chainB (fun a b => decide (a < b)) Rpart = true)
    (h4 : ∀ r ∈ Rpart, rwell < r) (h5 : ∀ r ∈ Rpart, r < Rinf)
    (h6a : ∀ re ∈ rad, ERat.blt re (ERat.fin rwell) = false)
    (h6b : ∀ re ∈ rad, ERat.ble re (ERat.fin 0) = false)
    (h7 : ∀ t ∈ time, 0 < t)
    (h9 : ∀ x ∈ Tpart, 0 < x) (h10 : ∀ x ∈ Spart, 0 < x)
    (h11 : ratIsInt stehfestn = true) (h12 : 1 < stehfestn)
    (h13 : stehfestn.num % 2 = 0) :
    diskValidate rad time Tpart Spart Rpart true rwell (ERat.fin Rinf) stehfestn
      = none := by
  have c2 : ¬ (ERat.ble (ERat.fin Rinf) (ERat.fin rwell) = true) := by
    simp only [ERat.ble, decide_eq_true_eq]
    exact not_le.mpr h2
  have c4 : ¬ (Rpart.any (fun r => decide (r ≤ rwell)) = true) := by
    simp only [List.any_eq_true, decide_eq_true_eq]
    rintro ⟨r, hr, hle⟩
    exact absurd (h4 r hr) (not_lt.mpr hle)
  have c5 : ¬ (Rpart.any (fun r => ERat.ble (ERat.fin Rinf) (ERat.fin r)) = true) := by
    simp only [List.any_eq_true, ERat.ble, decide_eq_true_eq]
    rintro ⟨r, hr, hle⟩
    exact absurd (h5 r hr) (not_lt.mpr hle)
  have c6 : ¬ ((rad.any (fun re => ERat.blt re (ERat.fin rwell)) ||
      rad.any (fun re => ERat.ble re (ERat.fin 0))) = true) := by
    rw [Bool.or_eq_true]
    rintro (hc | hc) <;> rw [List.any_eq_true] at hc
    · obtain ⟨re, hre, hb⟩ := hc
      rw [h6a re hre] at hb
      cases hb
    · obtain ⟨re, hre, hb⟩ := hc
      rw [h6b re hre] at hb
      cases hb
  have c7 : ¬ (time.any (fun t => decide (t ≤ 0)) = true) := by
    simp only [List.any_eq_true, decide_eq_true_eq]
    rintro ⟨t, ht, hle⟩
    exact absurd (h7 t ht) (not_lt.mpr hle)
  have c9 : ¬ (Tpart.any (fun x => decide (x ≤ 0)) = true) := by
    simp only [List.any_eq_true, decide_eq_true_eq]
    rintro ⟨x, hx, hle⟩
    exact absurd (h9 x hx) (not_lt.mpr hle)
  have c10 : ¬ (Spart.any (fun x => decide (x ≤ 0)) = true) := by
    simp only [List.any_eq_true, decide_eq_true_eq]
    rintro ⟨x, hx, hle⟩
    exact absurd (h10 x hx) (not_lt.mpr hle)
  unfold diskValidate
  rw [if_neg (not_lt.mpr h1), if_neg c2, if_neg (not_not_intro h3), if_neg c4,
    if_neg c5, if_neg c6, if_neg c7, if_neg (by simp), if_neg c9, if_neg c10,
    if_neg (not_not_intro h11), if_neg (not_le.mpr h12), if_neg (not_not_intro h13)]


/-- C10 (amended): `diskmodel`'s validation never rejects a requested
radius at or beyond a finite outer boundary `rinf` — it only requires
every radius to be positive and at least `rwell`, and checks only the
zone radii `Rpart` against `rinf` — but the claimed head `hinf` beyond
`rinf` is returned only with at least two zones (`Rpart` nonempty): a
validated single-zone call crashes with `TypeError` at
`parts = len(np.squeeze(Tpart))` and returns nothing (see the
counterexample).  With at least two zones, for every radius at or beyond
`rinf` the returned head is exactly `hinf` at every time, because the
Laplace solver contributes zero there.  (The Stehfest inversion is
modelled from the spec, as `anaflow.laplace.stehfest` is not under
`src/`: abstract weights `w` and constant `ln2`, value
`(ln2/t) * Σ_k w k * f(k*ln2/t)`.) -/
theorem claim_C10_amended (F : Ops ℚ) (hfin : ∀ x, F.fin0 x = x)
    (solver : (ℕ → ℕ → ℚ) → (ℕ → ℚ) → ℕ → (ℕ → ℚ))
    (w : ℕ → ℚ) (ln2 : ℚ) (rad : List ERat) (time : List ℚ)
    (Tpart Spart Rpart : List ℚ) (Qw rwell Rinf hinf stehfestn : ℚ)
    (h1 : 0 ≤ rwell) (h2 : rwell < Rinf)
    (h3 : chainB (fun a b => decide (a < b)) Rpart = true)
    (h4 : ∀ r ∈ Rpart, rwell < r) (h5 : ∀ r ∈ Rpart, r < Rinf)
    (h6a : ∀ re ∈ rad, ERat.blt re (ERat.fin rwell) = false)
    (h6b : ∀ re ∈ rad, ERat.ble re (ERat.fin 0) = false)
    (h7 : ∀ t ∈ time, 0 < t)
    (h9 : ∀ x ∈ Tpart, 0 < x) (h10 : ∀ x ∈ Spart, 0 < x)
    (h11 : ratIsInt stehfestn = true) (h12 : 1 < stehfestn)
    (h13 : stehfestn.num % 2 = 0)
    (hlenT : Tpart.length = Rpart.length + 1) (hR : 1 ≤ Rpart.length) :
    diskValidate rad time Tpart Spart Rpart true rwell (ERat.fin Rinf) stehfestn
        = none ∧
    ∃ g, diskmodel F solver w ln2 rad time Tpart Spart Rpart Qw true rwell
        (ERat.fin Rinf) hinf stehfestn = .ok (.grid g) ∧
      g.length = time.length ∧
      ∀ row ∈ g, row.length = rad.length ∧
        ∀ jr, jr < rad.length →
          ERat.ble (ERat.fin Rinf) (rad.getD jr ERat.inf) = true →
          row.getD jr 0 = hinf := by
  have hval := diskValidate_eq_none rad time Tpart Spart Rpart rwell Rinf stehfestn
    h1 h2 h3 h4 h5 h6a h6b h7 h9 h10 h11 h12 h13
  have hT1 : 2 ≤ Tpart.length := by omega
  have hsort : chainB ERat.blt
      (ERat.fin rwell :: (Rpart.map ERat.fin ++ [ERat.fin Rinf])) = true := by
    apply chainB_fin_snoc Rinf Rpart rwell
    · cases Rpart with
      | nil => rfl
      | cons a t =>
        rw [chainB, Bool.and_eq_true]
        exact ⟨decide_eq_true (h4 a (List.mem_cons_self a t)), h3⟩
    · intro r hr
      rcases List.mem_cons.mp hr with hr1 | hr2
      · rw [hr1]; exact h2
      · exact h5 r hr2
  have hlenr : (ERat.fin rwell :: (Rpart.map ERat.fin ++ [ERat.fin Rinf])).length
      = Tpart.length + 1 := by simp [hlenT]
  have hlap : ∀ s, lap_transgwflow_cyl F solver s rad
      (ERat.fin rwell :: (Rpart.map ERat.fin ++ [ERat.fin Rinf])) Spart Tpart Qw =
      some (lapTotal F solver s rad
        (ERat.fin rwell :: (Rpart.map ERat.fin ++ [ERat.fin Rinf])) Spart Tpart Qw) :=
    fun s => lap_some F solver s rad _ Spart Tpart Qw hT1
  have hst := stehfest_total _ (fun s => lapTotal F solver s rad
      (ERat.fin rwell :: (Rpart.map ERat.fin ++ [ERat.fin Rinf])) Spart Tpart Qw)
    time stehfestn.num.toNat w ln2 rad.length hlap
  refine ⟨hval, ?_⟩
  simp only [diskmodel, hval, hst]
  refine ⟨_, rfl, by simp, ?_⟩
  intro row hrow
  rw [List.mem_map] at hrow
  obtain ⟨row0, hrow0, hrowEq⟩ := hrow
  rw [List.mem_map] at hrow0
  obtain ⟨t, ht, hrow0Eq⟩ := hrow0
  subst hrowEq
  subst hrow0Eq
  refine ⟨by simp, ?_⟩
  intro jr hjr hbey
  rw [getD_map_lt _ _ jr (by simpa using hjr) 0 0]
  rw [getD_map_range rad.length jr hjr _ 0]
  have hre : ERat.ble
      ((ERat.fin rwell :: (Rpart.map ERat.fin ++ [ERat.fin Rinf])).getD
        ((ERat.fin rwell :: (Rpart.map ERat.fin ++ [ERat.fin Rinf])).length - 1)
        ERat.inf) (rad.getD jr ERat.inf) = true := by
    rw [rpart_last_fin]
    exact hbey
  have hz : ∀ k ∈ List.range stehfestn.num.toNat,
      w (k + 1) * ((lapTotal F solver (((k : ℚ) + 1) * ln2 / t) rad
        (ERat.fin rwell :: (Rpart.map ERat.fin ++ [ERat.fin Rinf])) Spart Tpart
        Qw).getD jr 0) = 0 := by
    intro k _
    rw [lap_entry_zero F hfin solver (((k : ℚ) + 1) * ln2 / t) rad
      (ERat.fin rwell :: (Rpart.map ERat.fin ++ [ERat.fin Rinf])) Spart Tpart Qw
      hsort hlenr (by omega) jr hjr hre]
    ring
  rw [List.map_congr_left hz]
  simp


/-- Counterexample for C10 as stated: a single-zone `diskmodel` call
(`Rpart = []`, so `Tpart` has one entry) with a finite outer boundary and
a requested radius beyond it passes the whole validation chain, but then
crashes with `TypeError` at `parts = len(np.squeeze(Tpart))` inside
`lap_transgwflow_cyl` instead of returning the ambient head `hinf`. -/
theorem claim_C10_cx :
    diskValidate [ERat.fin 3] [1] [1] [1] [] true 0 (ERat.fin 2) 2 = none ∧
    diskmodel idOps zsolver (fun _ => 1) 1 [ERat.fin 3] [1] [1] [1] [] 0 true 0
      (ERat.fin 2) 5 2 = .err "uncaught exception" := by
  decide

/-- Witness for the amended C10: two zones separated at radius 1, outer
boundary at radius 2 and a requested radius 3 beyond it; validation
passes and the returned head at that radius is the ambient head 5. -/
theorem claim_C10_witness :
    diskValidate [ERat.fin 3] [1] [1, 1] [1, 1] [1] true 0 (ERat.fin 2) 2
        = none ∧
    ∃ g, diskmodel idOps zsolver (fun _ => 1) 1 [ERat.fin 3] [1] [1, 1] [1, 1] [1]
        0 true 0 (ERat.fin 2) 5 2 = .ok (.grid g) ∧
      g.length = ([1] : List ℚ).length ∧
      ∀ row ∈ g, row.length = [ERat.fin 3].length ∧
        ∀ jr, jr < [ERat.fin 3].length →
          ERat.ble (ERat.fin 2) ([ERat.fin 3].getD jr ERat.inf) = true →
          row.getD jr 0 = 5 :=
  claim_C10_amended idOps (fun _ => rfl) zsolver (fun _ => 1) 1 [ERat.fin 3] [1]
    [1, 1] [1, 1] [1] 0 0 2 5 2 (by decide) (by decide) (by decide) (by decide)
    (by decide) (by decide) (by decide) (by decide) (by decide) (by decide)
    (by decide) (by decide) (by decide) (by decide) (by decide)

end Anaflow
